import Mathlib

/-!
Bijou.js, module `math.js`: a shallow embedding and its verified properties.

The functions of `src/js/math.js` are translated into Lean definitions, one per
source function, and the properties of the specification are proved about them.

Conventions of the embedding:

* JavaScript numbers that hold integers are Lean integers, with exact arithmetic;
  numbers that hold fractions are exact rationals (`JSNum` adds `NaN` and the
  infinities where the code can produce them).
* The products of `factorial` are products of IEEE 754 doubles: each exact product
  is rounded to the nearest double (`roundToDouble`), with overflow to `Infinity`.
* Arrays are lists.
* A recursion that the source does not bound (`getGCD`, `equals`) takes a budget of
  nested calls as its first argument and reports when the budget is used up.
* A function that can throw returns the error as a value.
* The easing curves are defined over an arbitrary ordered field of numbers, and the
  members of `Math` they call (`sin`, `cos`, `sqrt`, `pow`, `PI`) are a parameter.
* Clock reads (`Date.now()`) and timer events are inputs of the embedding.
-/

namespace Bijou

/-! ## Errors and numbers -/

/-- Errors raised by the module: the `TypeError` thrown by `factorial`, and the error
of the required-parameter helper `req`. -/
inductive JSError where
  | typeError (msg : String)
  | missingArgument (type : String) (desc : String)
  deriving DecidableEq, Repr

/-- A JavaScript number: `NaN`, the two infinities, or a finite value (the finite
doubles are read as exact rationals). -/
inductive JSNum where
  | nan
  | posInf
  | negInf
  | fin (q : ℚ)
  deriving DecidableEq

/-- The JavaScript remainder `a % b` on integers: the result takes the sign of the
dividend (truncated division). -/
def jsRem (a b : Int) : Int := Int.tmod a b

/-! ## gcd (math.js lines 12-33) -/

/-- Shape of a call to `gcd`: either the numbers are passed as separate arguments,
`gcd(n1, n2, ...)`, or a single array is passed first, `gcd([n1, n2, ...])`. -/
inductive GcdCall where
  | variadic (nums : List Int)
  | single (arr : List Int)

/-- One pass of the `for (let i in arr)` loop of `getGCD`: every entry strictly above
`min` is lowered by `min`; `min` itself was read before the loop and stays fixed. -/
def subtractMin (mn : Int) (arr : List Int) : List Int :=
  arr.map fun x => if x > mn then x - mn else x

/-- The inner recursive function `getGCD(arr)` of `gcd` (math.js lines 19-32).
The recursion of the source has no bound, so the embedding counts the remaining
recursive calls; `none` means that the budget is used up.  `Math.min()` of an empty
argument list is `Infinity` and `Math.max()` is `-Infinity`, so the empty array
recurses on itself. -/
def getGCD : Nat → List Int → Option Int
  | 0, _ => none
  | fuel + 1, [] => getGCD fuel []
  | fuel + 1, a :: rest =>
    let mn := rest.foldl min a
    let mx := rest.foldl max a
    if mn = mx then some mn
    else getGCD fuel (subtractMin mn (a :: rest))

/-- The exported `gcd` (math.js lines 12-18): dispatch on `ary[0] instanceof Array`. -/
def gcd (fuel : Nat) : GcdCall → Option Int
  | GcdCall.single arr => getGCD fuel arr
  | GcdCall.variadic nums => getGCD fuel nums

/-! ## isPrime (math.js lines 83-87) and primesTo (lines 219-231) -/

/-- Downward search for the integer square root: the greatest `k ≤ bound` with
`k * k ≤ n`, or `0` when there is none. -/
def sqrtSearch (n : Nat) : Nat → Nat
  | 0 => 0
  | k + 1 => if (k + 1) * (k + 1) ≤ n then k + 1 else sqrtSearch n k

/-- The value `Math.floor(Math.sqrt(num))` on an integer argument.  For a negative
argument `Math.sqrt` yields `NaN`, which `Math.floor` keeps; `none` stands for `NaN`. -/
def floorSqrt (num : Int) : Option Int :=
  if num < 0 then none else some (sqrtSearch num.toNat num.toNat : Nat)

/-- The loop `for (let i = 2; i <= boundary; i++) if (num % i === 0) return false;`
of `isPrime`, started at counter `i` with `trips` iterations left.  The result is
`true` when the loop leaves the function through its `return false`. -/
def isPrimeLoop (num : Int) : Nat → Int → Bool
  | 0, _ => false
  | trips + 1, i => if jsRem num i = 0 then true else isPrimeLoop num trips (i + 1)

/-- The exported `isPrime` (math.js lines 83-87).  With a `NaN` boundary the loop
condition `i <= boundary` is false at once. -/
def isPrime (num : Int) : Bool :=
  match floorSqrt num with
  | none => decide (num ≥ 2)
  | some boundary =>
    if isPrimeLoop num (boundary - 1).toNat 2 then false else decide (num ≥ 2)

/-- The array `Array.from({ length: len }).map((x, i) => i + 2)`; a negative length,
or a `NaN` one (`none`), gives the empty array. -/
def fromTwo (len : Option Int) : List Int :=
  match len with
  | none => []
  | some n => (List.range n.toNat).map fun (i : Nat) => (i : Int) + 2

/-- The exported `primesTo` (math.js lines 219-231). -/
def primesTo (num : Int) : List Int :=
  let arr := fromTwo (some (num - 1))
  let sqroot := floorSqrt num
  let numsTillSqroot := fromTwo (sqroot.map fun s => s - 1)
  numsTillSqroot.foldl (fun arr x => arr.filter fun y => jsRem y x ≠ 0 || y = x) arr

/-! ## luhnCheck (math.js lines 115-128) -/

/-- The argument of `luhnCheck`: a string, or an integer number whose `num + ""` is
its plain decimal representation (numbers below `10^21` in absolute value). -/
inductive LuhnArg where
  | str (s : String)
  | num (n : Int)

/-- The string `num + ""` of `luhnCheck`. -/
def LuhnArg.text : LuhnArg → String
  | LuhnArg.str s => s
  | LuhnArg.num n => toString n

/-- The call `parseInt(x)` on the one-unit strings produced by `split("")`: a decimal
digit parses to its value, anything else to `NaN` (`none`). -/
def parseIntUnit (c : Char) : Option Int :=
  if c.isDigit then some ((c.toNat : Int) - 48) else none

/-- The array `(num + "").split("")` mapped through `parseInt`: one entry per UTF-16
unit, so a character outside the basic plane gives two entries, both `NaN`. -/
def splitDigits (s : String) : List (Option Int) :=
  s.toList.flatMap fun c => if c.toNat ≥ 65536 then [none, none] else [parseIntUnit c]

/-- The reducer `(acc, val, i) => i % 2 !== 0 ? acc + val : acc + ((val * 2) % 9) || 9`
of `luhnCheck`.  The conditional operator binds weaker than `||`, so the fallback
`|| 9` applies to the whole sum `acc + ((val * 2) % 9)`, which is falsy when it is `0`
or `NaN`. -/
def luhnStep (acc val : Option Int) (i : Nat) : Option Int :=
  if i % 2 ≠ 0 then
    match acc, val with
    | some a, some v => some (a + v)
    | _, _ => none
  else
    match acc, val with
    | some a, some v =>
      if a + jsRem (v * 2) 9 = 0 then some 9 else some (a + jsRem (v * 2) 9)
    | _, _ => some 9

/-- The call `arr.reduce(f, init)`, with the element index passed to `f`. -/
def reduceIdx (f : Option Int → Option Int → Nat → Option Int) :
    Option Int → Nat → List (Option Int) → Option Int
  | acc, _, [] => acc
  | acc, i, v :: rest => reduceIdx f (f acc v i) (i + 1) rest

/-- The exported `luhnCheck` (math.js lines 115-128).  `arr.splice(0, 1)[0]` of an
empty array is `undefined`, and adding it to the sum gives `NaN`. -/
def luhnCheck (num : LuhnArg) : Bool :=
  let arr := (splitDigits num.text).reverse
  let lastDigit := arr.head?.join
  let sum := reduceIdx luhnStep (some 0) 0 arr.tail
  match sum, lastDigit with
  | some s, some d => decide (jsRem (s + d) 10 = 0)
  | _, _ => false

/-- Contribution of a doubled digit in the Luhn algorithm: the sum of the decimal
digits of its double. -/
def luhnDouble (d : Nat) : Nat := (2 * d) / 10 + (2 * d) % 10

/-- Luhn total of a digit list given check digit first: entries at odd positions
(the first of them is immediately left of the check digit) are doubled. -/
def luhnTotal : Nat → List Nat → Nat
  | _, [] => 0
  | i, d :: rest => (if i % 2 = 1 then luhnDouble d else d) + luhnTotal (i + 1) rest

/-- The standard Luhn checksum as the specification words it, on a list of decimal
digits written left to right.  This definition follows the specification, not the
code; `luhnCheck` is compared with it. -/
def luhnStandard (digits : List Nat) : Bool :=
  decide (luhnTotal 0 digits.reverse % 10 = 0)

/-- Decimal digits of a string of digit characters. -/
def digitsOf (s : String) : List Nat := s.toList.map fun c => c.toNat - 48

/-! ## factorial (math.js lines 97-104) -/

/-- A non-negative integer as an IEEE 754 double holds it: a finite value, or
`Infinity`. -/
inductive DoubleNat where
  | finite (v : Nat)
  | infinity
  deriving DecidableEq, Repr

/-- Number of low bits an integer loses when it is cut to 53 bits: the least `e` with
`m >>> e < 2^53`, found by halving at most `fuel` times. -/
def excessBits : Nat → Nat → Nat
  | 0, _ => 0
  | fuel + 1, m => if m < 2 ^ 53 then 0 else excessBits fuel (m / 2) + 1

/-- Rounding of an exact non-negative integer to the nearest double, ties to the
even significand.  An integer below `2^53` is kept.  A longer integer `m` keeps its
leading 53 bits `q = m >>> e`, rounded up when the `e` dropped bits `r` exceed half a
unit, or equal it with `q` odd; the result is `q1 <<< e`, that is `q1 * 2^e`, and it is
`Infinity` when it reaches `2^1024`. -/
def roundToDouble (m : Nat) : DoubleNat :=
  if m < 2 ^ 53 then DoubleNat.finite m
  else
    let e := excessBits m m
    let q := m >>> e
    let r := m - (q <<< e)
    let half := 1 <<< (e - 1)
    let q1 := if r > half ∨ (r = half ∧ q % 2 = 1) then q + 1 else q
    if 2 ^ 53 ≤ (q1 <<< e) >>> 971 then DoubleNat.infinity else DoubleNat.finite (q1 <<< e)

/-- The product `n * r` of doubles, for a positive integer `n` and a value `r` of
`factorial`: the exact product rounded to a double; `n * Infinity` is `Infinity`. -/
def mulDouble (n : Nat) : DoubleNat → DoubleNat
  | DoubleNat.finite v => roundToDouble (n * v)
  | DoubleNat.infinity => DoubleNat.infinity

/-- The exported `factorial` (math.js lines 97-104) on an integer argument (an
integer of absolute value up to `2^53`, for which `n - 1` is exact).  The product
`n * factorial(n - 1)` is a product of doubles, and it propagates an error of the
recursive call. -/
def factorial (n : Int) : Except JSError DoubleNat :=
  if n < 0 then Except.error (JSError.typeError "Negative numbers are not allowed!")
  else if n ≤ 1 then Except.ok (DoubleNat.finite 1)
  else
    match factorial (n - 1) with
    | Except.ok r => Except.ok (mulDouble n.toNat r)
    | Except.error e => Except.error e
termination_by n.toNat
decreasing_by omega

/-- The values of `factorial` on the natural numbers, by recursion on the argument. -/
def factorialValue : Nat → DoubleNat
  | 0 => DoubleNat.finite 1
  | k + 1 => if k = 0 then DoubleNat.finite 1 else mulDouble (k + 1) (factorialValue k)

/-! ## range (math.js lines 180-187) -/

/-- The exported `range` (math.js lines 180-187); `none` is an omitted `end`, which
defaults to `0`. -/
def range (start : Int) (endArg : Option Int) : List Int :=
  let end0 := endArg.getD 0
  let lo := if start > end0 then end0 else start
  let hi := if start > end0 then start else end0
  (List.range (hi - lo + 1).toNat).map fun (idx : Nat) => lo + (idx : Int)

/-! ## round (math.js lines 45-46) -/

/-- The function `Math.round` on a finite value: the nearest integer, ties towards
`+∞`. -/
def mathRound (q : ℚ) : Int := ⌊q + 1 / 2⌋

/-- The exported `round` (math.js lines 45-46) on finite arguments; `none` is an
omitted `amount`, which defaults to `1`.  With `amount = 0` the quotient is an
infinity or `NaN`, and its product with `0` is `NaN`. -/
def round (number : ℚ) (amountArg : Option ℚ) : JSNum :=
  let amount := amountArg.getD 1
  if amount = 0 then JSNum.nan
  else JSNum.fin ((mathRound (number / amount) : ℚ) * amount)

/-! ## equals (math.js lines 60-72) -/

/-- The values `equals` is studied on.  Objects carry a reference `ref` that stands
for their identity: `===` on two objects compares references, never contents.  A
plain object lists its own enumerable properties in `Object.keys` order; an array
lists its elements.  Values are finite trees, so cyclic structures are outside the
model, and so are functions, symbols, sparse arrays, characters outside the basic
plane, and properties inherited from a prototype. -/
inductive JSValue where
  | undefined
  | null
  | bool (b : Bool)
  | num (n : JSNum)
  | str (s : String)
  | date (ref : Nat) (time : JSNum)
  | regexp (ref : Nat) (text : String)
  | obj (ref : Nat) (props : List (String × JSValue))
  | arr (ref : Nat) (elems : List JSValue)

/-- The operator `===` on two numbers: `NaN` differs from everything, itself included. -/
def JSNum.strictEq : JSNum → JSNum → Bool
  | JSNum.nan, _ => false
  | _, JSNum.nan => false
  | x, y => decide (x = y)

/-- The operator `a === b`. -/
def strictEq : JSValue → JSValue → Bool
  | JSValue.undefined, JSValue.undefined => true
  | JSValue.null, JSValue.null => true
  | JSValue.bool x, JSValue.bool y => x == y
  | JSValue.num x, JSValue.num y => x.strictEq y
  | JSValue.str x, JSValue.str y => x == y
  | JSValue.date r _, JSValue.date r' _ => r == r'
  | JSValue.regexp r _, JSValue.regexp r' _ => r == r'
  | JSValue.obj r _, JSValue.obj r' _ => r == r'
  | JSValue.arr r _, JSValue.arr r' _ => r == r'
  | _, _ => false

/-- Truthiness, as tested by `!a`. -/
def truthy : JSValue → Bool
  | JSValue.undefined => false
  | JSValue.null => false
  | JSValue.bool b => b
  | JSValue.num JSNum.nan => false
  | JSValue.num (JSNum.fin q) => decide (q ≠ 0)
  | JSValue.num _ => true
  | JSValue.str s => decide (s ≠ "")
  | _ => true

/-- The operator `typeof`. -/
def typeofJS : JSValue → String
  | JSValue.undefined => "undefined"
  | JSValue.bool _ => "boolean"
  | JSValue.num _ => "number"
  | JSValue.str _ => "string"
  | _ => "object"

/-- Modelled from the spec: `_$.typeOf`, a helper of the library that is defined
outside math.js; `equals` uses it to recognise "regex-like objects", so it returns the
class name of its argument. -/
def typeOf : JSValue → String
  | JSValue.undefined => "Undefined"
  | JSValue.null => "Null"
  | JSValue.bool _ => "Boolean"
  | JSValue.num _ => "Number"
  | JSValue.str _ => "String"
  | JSValue.date _ _ => "Date"
  | JSValue.regexp _ _ => "RegExp"
  | JSValue.obj _ _ => "Object"
  | JSValue.arr _ _ => "Array"

/-- Modelled from the spec: `req`, the required-parameter helper of the library that
is defined outside math.js.  It is the default value of a mandatory parameter and
"raises before the body executes when a mandatory argument is omitted". -/
def req (type : String) (desc : String) : JSError := JSError.missingArgument type desc

/-- The test `a instanceof Date`. -/
def isDate : JSValue → Bool
  | JSValue.date _ _ => true
  | _ => false

/-- The call `a.getTime()` on a date. -/
def getTime : JSValue → JSNum
  | JSValue.date _ t => t
  | _ => JSNum.nan

/-- The conversion `String(a)`, used by `equals` on regular expressions only. -/
def toStringJS : JSValue → String
  | JSValue.regexp _ text => text
  | JSValue.str s => s
  | _ => ""

/-- The index a canonical array-index key such as `"0"` or `"12"` denotes, among the
first `len` indices. -/
def indexOfKey (len : Nat) (k : String) : Option Nat :=
  (List.range len).find? fun i => toString i == k

/-- Property read `a[k]`: own properties of a plain object (the first entry wins),
elements and `length` of an array, characters and `length` of a string; every other
read gives `undefined`. -/
def getProp : JSValue → String → JSValue
  | JSValue.obj _ props, k =>
    match props.find? fun p => p.1 == k with
    | some p => p.2
    | none => JSValue.undefined
  | JSValue.arr _ elems, k =>
    if k = "length" then JSValue.num (JSNum.fin elems.length)
    else
      match indexOfKey elems.length k with
      | some i => elems.getD i JSValue.undefined
      | none => JSValue.undefined
  | JSValue.str s, k =>
    if k = "length" then JSValue.num (JSNum.fin s.length)
    else
      match indexOfKey s.length k with
      | some i => JSValue.str (String.singleton (s.toList.getD i ' '))
      | none => JSValue.undefined
  | _, _ => JSValue.undefined

/-- The list `Object.keys(a)`. -/
def ownKeys : JSValue → List String
  | JSValue.obj _ props => props.map fun p => p.1
  | JSValue.arr _ elems => (List.range elems.length).map fun i => toString i
  | JSValue.str s => (List.range s.length).map fun i => toString i
  | _ => []

/-- Result of a call of `equals`: the boolean returned, the error raised, or
`unfinished` when the budget of nested calls is used up before the call ends. -/
inductive Outcome where
  | returned (b : Bool)
  | raised (e : JSError)
  | unfinished
  deriving DecidableEq

/-- The call `keys.every(f)`: it stops at the first key on which `f` does not return `true`. -/
def everyKey (f : String → Outcome) : List String → Outcome
  | [] => Outcome.returned true
  | k :: ks =>
    match f k with
    | Outcome.returned true => everyKey f ks
    | other => other

/-- The exported `equals` (math.js lines 60-72).  The recursion of the source follows
the nesting of its arguments; the embedding counts the nested calls still allowed. -/
def equals : Nat → JSValue → JSValue → Outcome
  | 0, _, _ => Outcome.unfinished
  | fuel + 1, a, b =>
    if strictEq a JSValue.undefined then Outcome.raised (req "any" "a")
    else if strictEq b JSValue.undefined then Outcome.raised (req "any" "b")
    else if strictEq a b then Outcome.returned true
    else if typeOf a = "RegExp" ∧ typeOf b = "RegExp" then
      Outcome.returned (toStringJS a == toStringJS b)
    else if isDate a ∧ isDate b then
      Outcome.returned ((getTime a).strictEq (getTime b))
    else if !truthy a || !truthy b || (typeofJS a ≠ "object" && typeofJS b ≠ "object") then
      Outcome.returned (strictEq a b)
    else if !strictEq (getProp a "prototype") (getProp b "prototype") then
      Outcome.returned false
    else
      let keys := ownKeys a
      if keys.length ≠ (ownKeys b).length then Outcome.returned false
      else everyKey (fun k => equals fuel (getProp a k) (getProp b k)) keys


/-- A number `g` is a greatest common divisor of the list `l`: it divides every
element, and every common divisor of the elements divides it. -/
def IsListGcd (g : Int) (l : List Int) : Prop :=
  (∀ x ∈ l, g ∣ x) ∧ ∀ d : Int, (∀ x ∈ l, d ∣ x) → d ∣ g

/-- A plain object `{prototype: {}}` built from two fresh references. -/
def protoHolder (outer inner : Nat) : JSValue :=
  JSValue.obj outer [("prototype", JSValue.obj inner [])]

/-- The number value of a finite rational. -/
def numV (q : ℚ) : JSValue := JSValue.num (JSNum.fin q)

/-! ## random (math.js lines 244-255) and seedRandom (lines 265-270) -/

/-- The exported `random` (math.js lines 244-255) in exact arithmetic.  The parameters
come in the order of the source, `max` first and `min` second; `none` is an omitted
`round`, which defaults to `true`.  The seed is passed explicitly: an omitted seed is
a value of `Math.random()`, a number in `[0, 1)`. -/
def random (max min : ℚ) (roundArg : Option Bool) (seed : ℚ) : ℚ :=
  let out := seed * (max - min + 1) + min
  if roundArg.getD true then ((⌊out⌋ : Int) : ℚ) else out

/-- The conversion `ToUint32`: the value modulo `2^32`. -/
def toUint32 (x : Int) : Nat := (x % 4294967296).toNat

/-- The conversion `ToInt32`: the value modulo `2^32`, read as a signed 32-bit
integer. -/
def toInt32 (x : Int) : Int :=
  if toUint32 x < 2147483648 then (toUint32 x : Int) else (toUint32 x : Int) - 4294967296

/-- The operator `a ^ b` (bitwise exclusive or of the 32-bit patterns). -/
def jsXor (a b : Int) : Int := toInt32 (Nat.xor (toUint32 a) (toUint32 b) : Nat)

/-- The operator `a | b` (bitwise or of the 32-bit patterns). -/
def jsOr (a b : Int) : Int := toInt32 (Nat.lor (toUint32 a) (toUint32 b) : Nat)

/-- The operator `a >>> k` (unsigned right shift of the 32-bit pattern). -/
def jsUshr (a : Int) (k : Nat) : Int := ((toUint32 a >>> (k % 32) : Nat) : Int)

/-- The function `Math.imul`: the product modulo `2^32`, as a signed 32-bit integer. -/
def imul (a b : Int) : Int := toInt32 (toInt32 a * toInt32 b)

/-- The integer `(t ^ (t >>> 14)) >>> 0` whose quotient by `2^32` is returned by
`seedRandom` (math.js lines 266-269).  The sum `seed + 0x6d2b79f5` is an exact integer
sum; every later step works on 32-bit values. -/
def seedRandomBits (seed : Int) : Int :=
  let t0 := seed + 0x6d2b79f5
  let t1 := imul (jsXor t0 (jsUshr t0 15)) (jsOr t0 1)
  let t2 := jsXor t1 (t1 + imul (jsXor t1 (jsUshr t1 7)) (jsOr t1 61))
  jsUshr (jsXor t2 (jsUshr t2 14)) 0

/-- The exported `seedRandom` (math.js lines 265-270) on an integer seed. -/
def seedRandom (seed : Int) : ℚ := (seedRandomBits seed : ℚ) / 4294967296

/-! ## formatNumber (math.js lines 281-282) -/

/-- Length of the maximal run of decimal digits (`\d`) at the start of a string. -/
def leadingDigits : List Char → Nat
  | [] => 0
  | c :: rest => if c.isDigit then leadingDigits rest + 1 else 0

/-- The lookahead `(?=(\d\d\d)+(?!\d))` of the pattern of `formatNumber`, tested on
the text that follows a digit: one or more groups of three digits and then no further
digit, that is, a run of digits whose length is a positive multiple of three. -/
def groupsOfThreeAhead (rest : List Char) : Bool :=
  decide (0 < leadingDigits rest) && decide (leadingDigits rest % 3 = 0)

/-- The replacement `.replace(/(\d)(?=(\d\d\d)+(?!\d))/g, "$1,")`: every digit that
the lookahead accepts is followed by a comma; all other characters are copied. -/
def insertCommas : List Char → List Char
  | [] => []
  | c :: rest =>
    if c.isDigit && groupsOfThreeAhead rest then c :: ',' :: insertCommas rest
    else c :: insertCommas rest

/-- The exported `formatNumber` (math.js lines 281-282) on an integer, whose
`toString()` is its plain decimal representation. -/
def formatNumber (n : Int) : String :=
  String.mk (insertCommas (toString n).toList)

/-! ## animate (math.js lines 156-169) -/

/-- The arguments of one call of `animate` (math.js line 156) together with the
clock value `start_time = Date.now()` read when the call is made.  Numbers are exact
rationals; `num` is the easing function, the identity by default. -/
structure AnimateCall where
  start : ℚ
  stop : ℚ
  duration : ℚ
  interval : ℚ
  num : ℚ → ℚ
  startTime : ℚ

/-- The two arguments the interval handler of `animate` (math.js lines 159-162) passes
to `callback` when its two reads of `Date.now()` return `now1` and then `now2`: the
value is computed from the first read and the percentage from the second.  The
quotient by a zero `duration` is not a finite number, and `none` stands for that
case. -/
def tickArgs (c : AnimateCall) (now1 now2 : ℚ) : Option (ℚ × ℚ) :=
  if c.duration = 0 then none
  else
    let value := c.num ((now1 - c.startTime) / c.duration) * (c.stop - c.start) + c.start
    some (value, c.num ((now2 - c.startTime) / c.duration))

/-- A call of `callback` made by a session: by the interval handler, with the
arguments of `tickArgs`, or by the timeout handler, with `(end, 1)`. -/
inductive CallbackCall where
  | fromTick (args : Option (ℚ × ℚ))
  | fromDeadline (value : ℚ) (percent : ℚ)
  deriving DecidableEq

/-- The events of a session: the host runs the interval handler (its two clock reads
are part of the event), the host runs the timeout handler, or the caller passes the
returned handle to `clearInterval`. -/
inductive TimerEvent where
  | tick (now1 now2 : ℚ)
  | deadline
  | clearReturnedHandle

/-- State of a session of `animate`: whether the interval `update` is still
registered, whether the timeout is still pending, and the calls of `callback` made
so far, oldest first. -/
structure SessionState where
  intervalActive : Bool
  deadlinePending : Bool
  calls : List CallbackCall

/-- State right after `animate` returns: both timers registered, no call made. -/
def SessionState.initial : SessionState :=
  SessionState.mk true true []

/-- One event of a session (math.js lines 159-167).  The host runs the interval
handler only while the interval is registered and the timeout handler only once, so
an event whose timer is gone changes nothing.  The timeout handler first clears the
interval and then calls `callback(end, 1)`. -/
def sessionStep (c : AnimateCall) (s : SessionState) : TimerEvent → SessionState
  | TimerEvent.tick now1 now2 =>
    if s.intervalActive then
      SessionState.mk s.intervalActive s.deadlinePending
        (s.calls ++ [CallbackCall.fromTick (tickArgs c now1 now2)])
    else s
  | TimerEvent.deadline =>
    if s.deadlinePending then
      SessionState.mk false false (s.calls ++ [CallbackCall.fromDeadline c.stop 1])
    else s
  | TimerEvent.clearReturnedHandle => SessionState.mk false s.deadlinePending s.calls

/-- The state a session reaches from `s` along a trace of events. -/
def sessionRun (c : AnimateCall) (s : SessionState) (trace : List TimerEvent) :
    SessionState :=
  trace.foldl (sessionStep c) s

/-- The test that a call of `callback` comes from the interval handler. -/
def CallbackCall.isTick : CallbackCall → Bool
  | CallbackCall.fromTick _ => true
  | CallbackCall.fromDeadline _ _ => false

/-- The test that a trace contains the deadline event. -/
def hasDeadline (trace : List TimerEvent) : Bool :=
  trace.any fun
    | TimerEvent.deadline => true
    | _ => false

/-- Invariant of a session, where `fired` tells whether the timeout handler has run:
the timeout is pending exactly when it has not run; once it has run the interval is
cleared; and the calls made so far are calls of the interval handler, followed by the
single call `callback(end, 1)` once the timeout handler has run. -/
def SessionInv (c : AnimateCall) (s : SessionState) (fired : Bool) : Prop :=
  s.deadlinePending = !fired ∧ (fired = true → s.intervalActive = false) ∧
    ∃ ticks : List CallbackCall, (∀ x ∈ ticks, x.isTick = true) ∧
      s.calls = ticks ++ (if fired then [CallbackCall.fromDeadline c.stop 1] else [])

/-! ## ease (math.js lines 290-564) -/

/-- The members of the host object `Math` that the easing curves call, read over a
field `K` of numbers: the constant `Math.PI` and the functions `Math.sin`, `Math.cos`,
`Math.sqrt` and `Math.pow`. -/
structure MathFns (K : Type) where
  pi : K
  sin : K → K
  cos : K → K
  sqrt : K → K
  pow : K → K → K

/-- The error raised by a read of an identifier that has no binding in scope. -/
structure ReferenceError where
  identifier : String
  deriving DecidableEq, Repr

/-- The curve `ease.linear` (math.js line 297). -/
def linear {K : Type} [LinearOrderedField K] (t : K) : K := t

/-- The curve `ease.easeInSine` (math.js lines 303-304). -/
def easeInSine {K : Type} [LinearOrderedField K] (M : MathFns K) (t : K) : K :=
  1 - M.cos ((t * M.pi) / 2)

/-- The curve `ease.easeOutSine` (math.js lines 310-311). -/
def easeOutSine {K : Type} [LinearOrderedField K] (M : MathFns K) (t : K) : K :=
  M.sin ((t * M.pi) / 2)

/-- The curve `ease.easeInOutSine` (math.js lines 317-318). -/
def easeInOutSine {K : Type} [LinearOrderedField K] (M : MathFns K) (t : K) : K :=
  -(M.cos (M.pi * t) - 1) / 2

/-- The curve `ease.easeInQuad` (math.js line 325). -/
def easeInQuad {K : Type} [LinearOrderedField K] (t : K) : K := t * t

/-- The curve `ease.easeOutQuad` (math.js line 332). -/
def easeOutQuad {K : Type} [LinearOrderedField K] (t : K) : K := t * (2 - t)

/-- The curve `ease.easeInOutQuad` (math.js lines 339-340). -/
def easeInOutQuad {K : Type} [LinearOrderedField K] (t : K) : K :=
  if t < 0.5 then 2 * t * t else -1 + (4 - 2 * t) * t

/-- The curve `ease.easeInCubic` (math.js line 347). -/
def easeInCubic {K : Type} [LinearOrderedField K] (t : K) : K := t * t * t

/-- The curve `ease.easeOutCubic` (math.js line 354); `--t` lowers `t` by one before
the product is formed. -/
def easeOutCubic {K : Type} [LinearOrderedField K] (t : K) : K :=
  let t1 := t - 1
  t1 * t1 * t1 + 1

/-- The curve `ease.easeInOutCubic` (math.js lines 361-362). -/
def easeInOutCubic {K : Type} [LinearOrderedField K] (t : K) : K :=
  if t < 0.5 then 4 * t * t * t else (t - 1) * (2 * t - 2) * (2 * t - 2) + 1

/-- The curve `ease.easeInQuart` (math.js line 369). -/
def easeInQuart {K : Type} [LinearOrderedField K] (t : K) : K := t * t * t * t

/-- The curve `ease.easeOutQuart` (math.js lines 376-377). -/
def easeOutQuart {K : Type} [LinearOrderedField K] (t : K) : K :=
  let t1 := t - 1
  1 - t1 * t1 * t1 * t1

/-- The curve `ease.easeInOutQuart` (math.js lines 384-385). -/
def easeInOutQuart {K : Type} [LinearOrderedField K] (t : K) : K :=
  if t < 0.5 then 8 * t * t * t * t
  else
    let t1 := t - 1
    1 - 8 * t1 * t1 * t1 * t1

/-- The curve `ease.easeInQuint` (math.js line 392). -/
def easeInQuint {K : Type} [LinearOrderedField K] (t : K) : K := t * t * t * t * t

/-- The curve `ease.easeOutQuint` (math.js lines 399-400). -/
def easeOutQuint {K : Type} [LinearOrderedField K] (t : K) : K :=
  let t1 := t - 1
  1 + t1 * t1 * t1 * t1 * t1

/-- The curve `ease.easeInOutQuint` (math.js lines 407-408). -/
def easeInOutQuint {K : Type} [LinearOrderedField K] (t : K) : K :=
  if t < 0.5 then 16 * t * t * t * t * t
  else
    let t1 := t - 1
    1 + 16 * t1 * t1 * t1 * t1 * t1

/-- The curve `ease.easeInExpo` (math.js lines 414-415). -/
def easeInExpo {K : Type} [LinearOrderedField K] (M : MathFns K) (t : K) : K :=
  if t = 0 then 0 else M.pow 2 (10 * t - 10)

/-- The curve `ease.easeOutExpo` (math.js lines 421-422). -/
def easeOutExpo {K : Type} [LinearOrderedField K] (M : MathFns K) (t : K) : K :=
  if t = 1 then 1 else 1 - M.pow 2 (-10 * t)

/-- The curve `ease.easeInOutExpo` (math.js lines 428-435). -/
def easeInOutExpo {K : Type} [LinearOrderedField K] (M : MathFns K) (t : K) : K :=
  if t = 0 then 0
  else if t = 1 then 1
  else if t < 0.5 then M.pow 2 (20 * t - 10) / 2
  else (2 - M.pow 2 (-20 * t + 10)) / 2

/-- The curve `ease.easeInCirc` (math.js lines 441-442). -/
def easeInCirc {K : Type} [LinearOrderedField K] (M : MathFns K) (t : K) : K :=
  1 - M.sqrt (1 - t * t)

/-- The curve `ease.easeOutCirc` (math.js lines 448-449). -/
def easeOutCirc {K : Type} [LinearOrderedField K] (M : MathFns K) (t : K) : K :=
  M.sqrt (1 - (t - 1) * (t - 1))

/-- The curve `ease.easeInOutCirc` (math.js lines 455-458).  In the first branch the
division by `2` applies to the square root alone. -/
def easeInOutCirc {K : Type} [LinearOrderedField K] (M : MathFns K) (t : K) : K :=
  if t < 0.5 then 1 - M.sqrt (1 - 4 * t * t) / 2
  else (M.sqrt (1 - M.pow (-2 * t + 2) 2) + 1) / 2

/-- The curve `ease.easeInBack` (math.js lines 464-465). -/
def easeInBack {K : Type} [LinearOrderedField K] (t : K) : K :=
  2.70158 * t * t * t - 1.70158 * t * t

/-- The body of `ease.easeOutBack` (math.js lines 471-472) evaluated in a scope where
the identifier `c1` is bound to `scopeC1`, or has no binding (`none`): the read of an
unbound identifier raises a `ReferenceError`. -/
def easeOutBackScoped {K : Type} [LinearOrderedField K] (M : MathFns K)
    (scopeC1 : Option K) (t : K) : Except ReferenceError K :=
  match scopeC1 with
  | none => Except.error (ReferenceError.mk "c1")
  | some c1 => Except.ok (1 + 2.70158 * M.pow (t - 1) 3 + c1 * M.pow (t - 1) 2)

/-- Modelled from the spec: the binding of the identifier `c1` that `ease.easeOutBack`
reads.  The module math.js declares no `c1`, and the specification records that the
curve "references an undefined constant": there is no binding. -/
def moduleScopeC1 (K : Type) : Option K := none

/-- The curve `ease.easeOutBack` (math.js lines 471-472) as the module exports it. -/
def easeOutBack {K : Type} [LinearOrderedField K] (M : MathFns K) (t : K) :
    Except ReferenceError K :=
  easeOutBackScoped M (moduleScopeC1 K) t

/-- The curve `ease.easeInOutBack` (math.js lines 478-485). -/
def easeInOutBack {K : Type} [LinearOrderedField K] (M : MathFns K) (t : K) : K :=
  let c : K := 2.5949095
  if t < 0.5 then (4 * t * t * ((c + 1) * 2 * t - c)) / 2
  else (M.pow (2 * t - 2) 2 * ((c + 1) * (t * 2 - 2) + c) + 2) / 2

/-- The curve `ease.easeInElastic` (math.js lines 491-497). -/
def easeInElastic {K : Type} [LinearOrderedField K] (M : MathFns K) (t : K) : K :=
  if t = 0 then 0
  else if t = 1 then 1
  else -(M.pow 2 (10 * t - 10)) * M.sin (((t * 10 - 10.75) * (2 * M.pi)) / 3)

/-- The curve `ease.easeOutElastic` (math.js lines 503-510). -/
def easeOutElastic {K : Type} [LinearOrderedField K] (M : MathFns K) (t : K) : K :=
  if t = 0 then 0
  else if t = 1 then 1
  else M.pow 2 (-10 * t) * M.sin (((t * 10 - 0.75) * (2 * M.pi)) / 3) + 1

/-- The curve `ease.easeInOutElastic` (math.js lines 516-529). -/
def easeInOutElastic {K : Type} [LinearOrderedField K] (M : MathFns K) (t : K) : K :=
  if t = 0 then 0
  else if t = 1 then 1
  else if t < 0.5 then
    -(M.pow 2 (20 * t - 10) * M.sin (((20 * t - 11.125) * (2 * M.pi)) / 4.5)) / 2
  else
    (M.pow 2 (-20 * t + 10) * M.sin (((20 * t - 11.125) * (2 * M.pi)) / 4.5)) / 2 + 1

/-- The curve `ease.easeOutBounce` (math.js lines 541-554); each `t -= x` lowers `t`
before the square is formed. -/
def easeOutBounce {K : Type} [LinearOrderedField K] (t : K) : K :=
  let n : K := 7.5625
  let d : K := 2.75
  if t < 1 / d then n * t * t
  else if t < 2 / d then
    let t1 := t - 1.5 / d
    n * t1 * t1 + 0.75
  else if t < 2.5 / d then
    let t1 := t - 2.25 / d
    n * t1 * t1 + 0.9375
  else
    let t1 := t - 2.625 / d
    n * t1 * t1 + 0.984375

/-- The curve `ease.easeInBounce` (math.js lines 535-536). -/
def easeInBounce {K : Type} [LinearOrderedField K] (t : K) : K :=
  1 - easeOutBounce (1 - t)

/-- The curve `ease.easeInOutBounce` (math.js lines 560-563). -/
def easeInOutBounce {K : Type} [LinearOrderedField K] (t : K) : K :=
  if t < 0.5 then (1 - easeOutBounce (1 - 2 * t)) / 2
  else (1 + easeOutBounce (2 * t - 1)) / 2

/-- The facts of exact arithmetic about the members of `Math` that the values of the
curves at `0` and `1` rest on. -/
structure MathFns.Exact {K : Type} [LinearOrderedField K] (M : MathFns K) : Prop where
  cos_zero : M.cos 0 = 1
  cos_half_pi : M.cos (M.pi / 2) = 0
  cos_pi : M.cos M.pi = -1
  sin_zero : M.sin 0 = 0
  sin_half_pi : M.sin (M.pi / 2) = 1
  sqrt_zero : M.sqrt 0 = 0
  sqrt_one : M.sqrt 1 = 1
  pow_two_zero : M.pow 2 0 = 1
  pow_sq : ∀ x : K, M.pow x 2 = x * x
  pow_cube : ∀ x : K, M.pow x 3 = x * x * x

/-! # Properties -/

/-! ## gcd -/

theorem foldl_min_le (rest : List Int) (a : Int) :
    rest.foldl min a ≤ a ∧ ∀ x ∈ rest, rest.foldl min a ≤ x := by
  induction rest generalizing a with
  | nil => simp
  | cons b t ih =>
    simp only [List.foldl_cons, List.mem_cons, forall_eq_or_imp]
    obtain ⟨h1, h2⟩ := ih (min a b)
    exact ⟨le_trans h1 (min_le_left _ _), le_trans h1 (min_le_right _ _), h2⟩

theorem foldl_min_mem (rest : List Int) (a : Int) :
    rest.foldl min a ∈ a :: rest := by
  induction rest generalizing a with
  | nil => simp
  | cons b t ih =>
    simp only [List.foldl_cons]
    have h := ih (min a b)
    rcases List.mem_cons.1 h with h | h
    · rw [h]
      rcases min_choice a b with h' | h' <;> simp [h']
    · exact List.mem_cons_of_mem _ (List.mem_cons_of_mem _ h)

theorem le_foldl_max (rest : List Int) (a : Int) :
    a ≤ rest.foldl max a ∧ ∀ x ∈ rest, x ≤ rest.foldl max a := by
  induction rest generalizing a with
  | nil => simp
  | cons b t ih =>
    simp only [List.foldl_cons, List.mem_cons, forall_eq_or_imp]
    obtain ⟨h1, h2⟩ := ih (max a b)
    exact ⟨le_trans (le_max_left _ _) h1, le_trans (le_max_right _ _) h1, h2⟩

theorem foldl_max_mem (rest : List Int) (a : Int) :
    rest.foldl max a ∈ a :: rest := by
  induction rest generalizing a with
  | nil => simp
  | cons b t ih =>
    simp only [List.foldl_cons]
    have h := ih (max a b)
    rcases List.mem_cons.1 h with h | h
    · rw [h]
      rcases max_choice a b with h' | h' <;> simp [h']
    · exact List.mem_cons_of_mem _ (List.mem_cons_of_mem _ h)

theorem subtractMin_sum_le (mn : Int) (hmn : 0 ≤ mn) (l : List Int) :
    (subtractMin mn l).sum ≤ l.sum := by
  induction l with
  | nil => simp [subtractMin]
  | cons b t ih =>
    simp only [subtractMin, List.map_cons, List.sum_cons] at ih ⊢
    split <;> omega

theorem subtractMin_sum_lt (mn : Int) (hmn : 0 < mn) (l : List Int) (x : Int)
    (hx : x ∈ l) (hlt : mn < x) : (subtractMin mn l).sum < l.sum := by
  induction l with
  | nil => simp at hx
  | cons b t ih =>
    have hle := subtractMin_sum_le mn hmn.le t
    simp only [subtractMin, List.map_cons, List.sum_cons] at ih hle ⊢
    rcases List.mem_cons.1 hx with h | h
    · subst h
      rw [if_pos hlt]; omega
    · have := ih h
      split <;> omega

/-- Budget monotonicity: once `getGCD` returns within a budget, it returns the same
value within every larger one. -/
theorem getGCD_mono : ∀ (fuel : Nat) (l : List Int) (g : Int),
    getGCD fuel l = some g → ∀ extra, getGCD (fuel + extra) l = some g := by
  intro fuel
  induction fuel with
  | zero => intro l g h; simp [getGCD] at h
  | succ k ih =>
    intro l g h extra
    have hk : k + 1 + extra = (k + extra) + 1 := by omega
    rw [hk]
    cases l with
    | nil =>
      simp only [getGCD] at h ⊢
      exact ih [] g h extra
    | cons a rest =>
      simp only [getGCD] at h ⊢
      split at h
      · rename_i heq
        rw [if_pos heq]; exact h
      · rename_i hne
        rw [if_neg hne]
        exact ih _ g h extra

/-- Termination and correctness of `getGCD` on positive entries, by induction on a
bound `N` of the sum of the entries: each recursive call lowers the sum. -/
theorem getGCD_pos_aux (N : Nat) : ∀ l : List Int, l ≠ [] → (∀ x ∈ l, 0 < x) →
    l.sum ≤ N →
    ∃ g : Int, 0 < g ∧ IsListGcd g l ∧ ∀ fuel, N < fuel → getGCD fuel l = some g := by
  induction N with
  | zero =>
    intro l hne hpos hsum
    exfalso
    cases l with
    | nil => exact hne rfl
    | cons a rest =>
      have h1 : 0 < a := hpos a (List.mem_cons_self _ _)
      have h2 : 0 ≤ rest.sum :=
        List.sum_nonneg fun x hx => (hpos x (List.mem_cons_of_mem _ hx)).le
      simp only [List.sum_cons] at hsum
      omega
  | succ N ih =>
    intro l hne hpos hsum
    cases l with
    | nil => exact absurd rfl hne
    | cons a rest =>
      have hminle := foldl_min_le rest a
      have hminmem := foldl_min_mem rest a
      have hmaxle := le_foldl_max rest a
      have hmaxmem := foldl_max_mem rest a
      have hmnpos : 0 < rest.foldl min a := hpos _ hminmem
      have hmin_all : ∀ x ∈ a :: rest, rest.foldl min a ≤ x := by
        intro x hx
        rcases List.mem_cons.1 hx with h | h
        · rw [h]; exact hminle.1
        · exact hminle.2 x h
      have hmax_all : ∀ x ∈ a :: rest, x ≤ rest.foldl max a := by
        intro x hx
        rcases List.mem_cons.1 hx with h | h
        · rw [h]; exact hmaxle.1
        · exact hmaxle.2 x h
      by_cases heq : rest.foldl min a = rest.foldl max a
      · refine ⟨rest.foldl min a, hmnpos, ⟨?_, ?_⟩, ?_⟩
        · intro x hx
          have : x = rest.foldl min a :=
            le_antisymm (heq ▸ hmax_all x hx) (hmin_all x hx)
          rw [this]
        · intro d hd
          exact hd _ hminmem
        · intro fuel hfuel
          obtain ⟨k, rfl⟩ : ∃ k, fuel = k + 1 := ⟨fuel - 1, by omega⟩
          simp [getGCD, heq]
      · have hlt : rest.foldl min a < rest.foldl max a :=
          lt_of_le_of_ne (hmin_all _ hmaxmem) heq
        have hsumlt := subtractMin_sum_lt _ hmnpos (a :: rest) _ hmaxmem hlt
        have hne' : subtractMin (rest.foldl min a) (a :: rest) ≠ [] := by
          simp [subtractMin]
        have hpos' : ∀ x ∈ subtractMin (rest.foldl min a) (a :: rest), 0 < x := by
          intro x hx
          simp only [subtractMin, List.mem_map] at hx
          obtain ⟨y, hy, rfl⟩ := hx
          have := hpos y hy
          split <;> omega
        obtain ⟨g, hg, ⟨hdiv, hgreat⟩, hfuel⟩ := ih _ hne' hpos' (by omega)
        have hmem' : rest.foldl min a ∈ subtractMin (rest.foldl min a) (a :: rest) := by
          simp only [subtractMin, List.mem_map]
          exact ⟨_, hminmem, by simp⟩
        refine ⟨g, hg, ⟨?_, ?_⟩, ?_⟩
        · intro x hx
          have hgm : g ∣ rest.foldl min a := hdiv _ hmem'
          have hx' : (if x > rest.foldl min a then x - rest.foldl min a else x) ∈
              subtractMin (rest.foldl min a) (a :: rest) := by
            simp only [subtractMin, List.mem_map]
            exact ⟨x, hx, rfl⟩
          have := hdiv _ hx'
          split at this
          · have := dvd_add this hgm
            simpa using this
          · exact this
        · intro d hd
          apply hgreat
          intro y hy
          simp only [subtractMin, List.mem_map] at hy
          obtain ⟨x, hx, rfl⟩ := hy
          split
          · exact dvd_sub (hd x hx) (hd _ hminmem)
          · exact hd x hx
        · intro fuel hfuel'
          obtain ⟨k, rfl⟩ : ∃ k, fuel = k + 1 := ⟨fuel - 1, by omega⟩
          simp only [getGCD, heq, if_false]
          exact hfuel k (by omega)

/-- Claim C1.  For every non-empty list of positive integers, `gcd` returns, in both
call forms (separate arguments, or one array argument), once the budget of recursive
calls is large enough, and the value returned is the greatest common divisor of the
list: it is positive, it divides every element, and every common divisor of the
elements divides it. -/
theorem gcd_computes_greatest_common_divisor (l : List Int) (hne : l ≠ [])
    (hpos : ∀ x ∈ l, 0 < x) :
    ∃ g : Int, 0 < g ∧ (∀ x ∈ l, g ∣ x) ∧ (∀ d : Int, (∀ x ∈ l, d ∣ x) → d ∣ g) ∧
      ∃ enough : Nat, ∀ fuel, enough ≤ fuel →
        gcd fuel (GcdCall.variadic l) = some g ∧ gcd fuel (GcdCall.single l) = some g := by
  have hsum : 0 ≤ l.sum := List.sum_nonneg fun x hx => (hpos x hx).le
  obtain ⟨g, hg, ⟨hdiv, hgreat⟩, hfuel⟩ :=
    getGCD_pos_aux l.sum.toNat l hne hpos (by omega)
  refine ⟨g, hg, hdiv, hgreat, l.sum.toNat + 1, fun fuel hle => ?_⟩
  have := hfuel fuel (by omega)
  exact ⟨this, this⟩

/-- Witness of claim C1 at `gcd(12, 4, 8)`, whose value is `4`. -/
theorem gcd_computes_greatest_common_divisor_witness :
    gcd 3 (GcdCall.variadic [12, 4, 8]) = some 4 ∧
    gcd 3 (GcdCall.single [12, 4, 8]) = some 4 ∧
    ∃ g : Int, 0 < g ∧ (∀ x ∈ [12, 4, 8], g ∣ x) ∧
      (∀ d : Int, (∀ x ∈ [12, 4, 8], d ∣ x) → d ∣ g) ∧
      ∃ enough : Nat, ∀ fuel, enough ≤ fuel →
        gcd fuel (GcdCall.variadic [12, 4, 8]) = some g ∧
          gcd fuel (GcdCall.single [12, 4, 8]) = some g :=
  ⟨by decide, by decide,
    gcd_computes_greatest_common_divisor [12, 4, 8] (by decide) (by decide)⟩

/-! ## isPrime and primesTo -/

theorem sqrtSearch_spec (n : Nat) : ∀ b : Nat,
    sqrtSearch n b ≤ b ∧ sqrtSearch n b * sqrtSearch n b ≤ n ∧
      ∀ k, k ≤ b → k * k ≤ n → k ≤ sqrtSearch n b := by
  intro b
  induction b with
  | zero => simp [sqrtSearch]
  | succ b ih =>
    obtain ⟨h1, h2, h3⟩ := ih
    by_cases h : (b + 1) * (b + 1) ≤ n
    · rw [sqrtSearch, if_pos h]
      exact ⟨le_refl _, h, fun k hk _ => hk⟩
    · rw [sqrtSearch, if_neg h]
      refine ⟨by omega, h2, fun k hk hkk => ?_⟩
      rcases Nat.lt_or_ge k (b + 1) with hlt | hge
      · exact h3 k (by omega) hkk
      · have : k = b + 1 := by omega
        subst this
        exact absurd hkk h

theorem sqrtSearch_eq_sqrt (n : Nat) : sqrtSearch n n = Nat.sqrt n := by
  obtain ⟨_, h2, h3⟩ := sqrtSearch_spec n n
  apply Nat.eq_sqrt.2
  refine ⟨h2, ?_⟩
  by_contra hcon
  push_neg at hcon
  have hle : sqrtSearch n n + 1 ≤ n := le_trans (Nat.le_mul_self _) hcon
  have := h3 _ hle hcon
  omega

theorem floorSqrt_natCast (k : Nat) : floorSqrt (k : Int) = some ((Nat.sqrt k : Nat) : Int) := by
  simp [floorSqrt, sqrtSearch_eq_sqrt]

theorem jsRem_natCast_eq_zero (a b : Nat) : jsRem (a : Int) (b : Int) = 0 ↔ b ∣ a := by
  have h : jsRem (a : Int) (b : Int) = ((a % b : Nat) : Int) := rfl
  rw [h, Nat.dvd_iff_mod_eq_zero]
  exact Int.natCast_eq_zero

theorem isPrimeLoop_natCast (n : Nat) : ∀ (trips i : Nat),
    isPrimeLoop (n : Int) trips (i : Int) = true ↔ ∃ m, i ≤ m ∧ m < i + trips ∧ m ∣ n := by
  intro trips
  induction trips with
  | zero =>
    intro i
    simp only [isPrimeLoop, Bool.false_eq_true, false_iff]
    rintro ⟨m, h1, h2, _⟩
    omega
  | succ t ih =>
    intro i
    have hi : ((i : Int) + 1) = ((i + 1 : Nat) : Int) := by push_cast; rfl
    simp only [isPrimeLoop]
    by_cases h : jsRem (n : Int) (i : Int) = 0
    · simp only [h, if_true, true_iff]
      exact ⟨i, le_refl _, by omega, (jsRem_natCast_eq_zero n i).1 h⟩
    · simp only [h, if_false]
      rw [hi, ih (i + 1)]
      constructor
      · rintro ⟨m, h1, h2, h3⟩
        exact ⟨m, by omega, by omega, h3⟩
      · rintro ⟨m, h1, h2, h3⟩
        rcases Nat.eq_or_lt_of_le h1 with he | hl
        · subst he
          exact absurd ((jsRem_natCast_eq_zero n i).2 h3) h
        · exact ⟨m, hl, by omega, h3⟩

theorem isPrime_natCast (k : Nat) : isPrime (k : Int) = true ↔ Nat.Prime k := by
  have hloop := isPrimeLoop_natCast k (Nat.sqrt k - 1) 2
  have htrips : (((Nat.sqrt k : Nat) : Int) - 1).toNat = Nat.sqrt k - 1 := by omega
  simp only [isPrime, floorSqrt_natCast, htrips]
  rw [Nat.prime_def_le_sqrt]
  have h2cast : ((2 : Nat) : Int) = 2 := rfl
  rw [h2cast] at hloop
  cases hcase : isPrimeLoop (k : Int) (Nat.sqrt k - 1) 2 with
  | true =>
    simp only [if_true, Bool.false_eq_true, false_iff]
    obtain ⟨m, h1, h2, h3⟩ := hloop.1 hcase
    intro hcon
    exact hcon.2 m h1 (by omega) h3
  | false =>
    simp only [Bool.false_eq_true, if_false, decide_eq_true_eq]
    constructor
    · intro h2
      refine ⟨by omega, fun m hm1 hm2 hdvd => ?_⟩
      have := hloop.2 ⟨m, hm1, by omega, hdvd⟩
      rw [hcase] at this
      exact Bool.false_ne_true this
    · intro h
      have := h.1
      omega

theorem isPrime_of_neg (n : Int) (h : n < 0) : isPrime n = false := by
  simp only [isPrime, floorSqrt, h, if_true]
  simp
  omega

theorem isPrime_iff_aux (n : Int) :
    isPrime n = true ↔ 2 ≤ n ∧ ∀ d : Int, 1 < d → d < n → ¬ d ∣ n := by
  rcases lt_or_le n 0 with hneg | hnn
  · rw [isPrime_of_neg n hneg]
    simp only [Bool.false_eq_true, false_iff]
    intro h; omega
  · obtain ⟨k, rfl⟩ := Int.eq_ofNat_of_zero_le hnn
    rw [isPrime_natCast, Nat.prime_def_lt']
    constructor
    · rintro ⟨h2, h⟩
      refine ⟨by omega, fun d hd1 hd2 hdvd => ?_⟩
      obtain ⟨m, rfl⟩ := Int.eq_ofNat_of_zero_le (by omega : 0 ≤ d)
      exact h m (by omega) (by omega) (Int.natCast_dvd_natCast.1 hdvd)
    · rintro ⟨h2, h⟩
      refine ⟨by omega, fun m hm1 hm2 hdvd => ?_⟩
      exact h m (by omega) (by omega) (Int.natCast_dvd_natCast.2 hdvd)


theorem foldl_filter_eq {α : Type} (p : α → α → Bool) : ∀ (xs arr : List α),
    xs.foldl (fun arr x => arr.filter fun y => p x y) arr =
      arr.filter fun y => xs.all fun x => p x y := by
  intro xs
  induction xs with
  | nil => intro arr; simp
  | cons x t ih =>
    intro arr
    simp only [List.foldl_cons, List.all_cons]
    rw [ih, List.filter_filter]
    apply List.filter_congr
    intro y _
    exact Bool.and_comm _ _

theorem mem_fromTwo (n y : Int) : y ∈ fromTwo (some n) ↔ 2 ≤ y ∧ y < n + 2 := by
  simp only [fromTwo, List.mem_map, List.mem_range]
  constructor
  · rintro ⟨i, hi, rfl⟩
    omega
  · rintro ⟨h1, h2⟩
    exact ⟨(y - 2).toNat, by omega, by omega⟩

theorem fromTwo_sorted (len : Option Int) : (fromTwo len).Pairwise (· < ·) := by
  cases len with
  | none => simp [fromTwo]
  | some n =>
    simp only [fromTwo]
    rw [List.pairwise_map]
    refine List.Pairwise.imp ?_ (List.pairwise_lt_range _)
    intro a b hab
    omega

theorem sieve_test_iff (k : Nat) (y : Int) (h2 : 2 ≤ y) (hy : y ≤ k) :
    ((fromTwo ((floorSqrt (k : Int)).map fun s => s - 1)).all
        fun x => jsRem y x ≠ 0 || y = x) = isPrime y := by
  obtain ⟨m, rfl⟩ := Int.eq_ofNat_of_zero_le (by omega : 0 ≤ y)
  rw [Bool.eq_iff_iff, isPrime_natCast, floorSqrt_natCast, Option.map_some', List.all_eq_true,
    Nat.prime_def_le_sqrt]
  have hmk : m ≤ k := by omega
  constructor
  · intro h
    refine ⟨by omega, fun d hd1 hd2 hdvd => ?_⟩
    have hdk : d ≤ Nat.sqrt k := le_trans hd2 (Nat.sqrt_le_sqrt hmk)
    have hmem : (d : Int) ∈ fromTwo (some (((Nat.sqrt k : Nat) : Int) - 1)) := by
      rw [mem_fromTwo]; omega
    have := h _ hmem
    simp only [Bool.or_eq_true, decide_eq_true_eq, ne_eq] at this
    rcases this with h' | h'
    · exact h' ((jsRem_natCast_eq_zero m d).2 hdvd)
    · have hlt : Nat.sqrt m < m := Nat.sqrt_lt_self (by omega)
      omega
  · rintro ⟨_, h⟩ x hx
    rw [mem_fromTwo] at hx
    obtain ⟨d, rfl⟩ := Int.eq_ofNat_of_zero_le (by omega : 0 ≤ x)
    simp only [Bool.or_eq_true, decide_eq_true_eq, ne_eq]
    by_cases hd : d ∣ m
    · right
      have hpr : Nat.Prime m := Nat.prime_def_le_sqrt.2 ⟨by omega, h⟩
      rcases (Nat.dvd_prime hpr).1 hd with h1 | h1
      · omega
      · rw [h1]
    · left
      exact fun hz => hd ((jsRem_natCast_eq_zero m d).1 hz)

theorem primesTo_eq_filter (n : Int) :
    primesTo n = (fromTwo (some (n - 1))).filter isPrime := by
  simp only [primesTo]
  rw [foldl_filter_eq (fun x y => jsRem y x ≠ 0 || y = x)]
  apply List.filter_congr
  intro y hy
  rw [mem_fromTwo] at hy
  obtain ⟨k, rfl⟩ := Int.eq_ofNat_of_zero_le (by omega : 0 ≤ n)
  exact sieve_test_iff k y hy.1 (by omega)

theorem mem_primesTo (n p : Int) :
    p ∈ primesTo n ↔ 2 ≤ p ∧ p ≤ n ∧ isPrime p = true := by
  rw [primesTo_eq_filter, List.mem_filter, mem_fromTwo]
  constructor
  · rintro ⟨⟨h1, h2⟩, h3⟩
    exact ⟨h1, by omega, h3⟩
  · rintro ⟨h1, h2, h3⟩
    exact ⟨⟨h1, by omega⟩, h3⟩

theorem primesTo_sorted (n : Int) : (primesTo n).Pairwise (· < ·) := by
  rw [primesTo_eq_filter]
  exact List.Pairwise.filter _ (fromTwo_sorted _)

/-- Claim C2.  For every integer `n`, `isPrime n` is `true` exactly when `n` is prime,
that is `n ≥ 2` and no `d` with `1 < d < n` divides `n` (equivalently, `n` is a prime
natural number); it is `false` for every `n < 2`, negative integers included.  The
documented values are `isPrime(11) = true` and `isPrime(10) = false`. -/
theorem isPrime_iff_prime :
    (∀ n : Int, isPrime n = true ↔ 2 ≤ n ∧ ∀ d : Int, 1 < d → d < n → ¬ d ∣ n) ∧
    (∀ n : Int, isPrime n = true ↔ 0 ≤ n ∧ Nat.Prime n.toNat) ∧
    (∀ n : Int, n < 2 → isPrime n = false) ∧
    isPrime 11 = true ∧ isPrime 10 = false ∧
    isPrime 0 = false ∧ isPrime 1 = false ∧ isPrime (-7) = false := by
  refine ⟨isPrime_iff_aux, ?_, ?_, by decide, by decide, by decide, by decide, by decide⟩
  · intro n
    rcases lt_or_le n 0 with hneg | hnn
    · rw [isPrime_of_neg n hneg]
      simp only [Bool.false_eq_true, false_iff]
      intro h; omega
    · obtain ⟨k, rfl⟩ := Int.eq_ofNat_of_zero_le hnn
      rw [isPrime_natCast]
      simp
  · intro n hn
    cases h : isPrime n with
    | false => rfl
    | true =>
      have := ((isPrime_iff_aux n).1 h).1
      omega

/-- Claim C4.  For every integer `n` (negative ones included, so in particular for
every `n ≥ 0`), `primesTo n` equals the integers `2, 3, ..., n` filtered by `isPrime`;
it is strictly increasing, hence without repeats; its members are exactly the primes
`p` with `2 ≤ p ≤ n`; it is empty for `n < 2`; and `primesTo(10) = [2, 3, 5, 7]`. -/
theorem primesTo_lists_primes (n : Int) :
    primesTo n =
      ((List.range (n - 1).toNat).map fun (i : Nat) => (i : Int) + 2).filter isPrime ∧
    (primesTo n).Pairwise (· < ·) ∧ (primesTo n).Nodup ∧
    (∀ p : Int, p ∈ primesTo n ↔
      2 ≤ p ∧ p ≤ n ∧ ∀ d : Int, 1 < d → d < p → ¬ d ∣ p) ∧
    (n < 2 → primesTo n = []) ∧
    primesTo 10 = [2, 3, 5, 7] := by
  have hsorted := primesTo_sorted n
  refine ⟨primesTo_eq_filter n, hsorted, ?_, ?_, ?_, by decide⟩
  · exact hsorted.imp fun h => ne_of_lt h
  · intro p
    rw [mem_primesTo, isPrime_iff_aux]
    constructor
    · rintro ⟨h1, h2, _, h3⟩
      exact ⟨h1, h2, h3⟩
    · rintro ⟨h1, h2, h3⟩
      exact ⟨h1, h2, h1, h3⟩
  · intro hn
    apply List.eq_nil_iff_forall_not_mem.2
    intro p hp
    rw [mem_primesTo] at hp
    omega

/-! ## luhnCheck -/

/-- The values the docstring of `luhnCheck` documents are the values the code
computes. -/
theorem luhnCheck_documented_examples :
    luhnCheck (LuhnArg.str "4485275742308327") = true ∧
    luhnCheck (LuhnArg.num 6011329933655299) = false ∧
    luhnCheck (LuhnArg.num 123456789) = false := by
  decide

/-- Claim C3, divergence of the code from the claim.  The digit strings `9019`,
`79927398713` and `378282246310005` pass the standard Luhn checksum, and `luhnCheck`
returns `false` on each of them; `00` passes it too and `luhnCheck` returns `false`.
The number `6011329933655299` of the docstring passes the standard checksum as well,
while `luhnCheck` returns the documented `false`. -/
theorem luhnCheck_misses_standard_checksum :
    (luhnStandard (digitsOf "9019") = true ∧ luhnCheck (LuhnArg.str "9019") = false) ∧
    (luhnStandard (digitsOf "79927398713") = true ∧
      luhnCheck (LuhnArg.str "79927398713") = false) ∧
    (luhnStandard (digitsOf "378282246310005") = true ∧
      luhnCheck (LuhnArg.str "378282246310005") = false) ∧
    (luhnStandard (digitsOf "00") = true ∧ luhnCheck (LuhnArg.str "00") = false) ∧
    (luhnStandard (digitsOf "6011329933655299") = true ∧
      luhnCheck (LuhnArg.num 6011329933655299) = false) := by
  decide

/-! ## factorial -/

theorem factorial_natCast (k : Nat) : factorial (k : Int) = Except.ok (factorialValue k) := by
  induction k with
  | zero => rw [factorial]; simp [factorialValue]
  | succ k ih =>
    rw [factorial]
    have h1 : ¬ (((k + 1 : Nat) : Int) < 0) := by omega
    rw [if_neg h1]
    by_cases h2 : ((k + 1 : Nat) : Int) ≤ 1
    · have hk : k = 0 := by omega
      subst hk
      simp [factorialValue]
    · rw [if_neg h2]
      have hk : k ≠ 0 := by omega
      have h3 : ((k + 1 : Nat) : Int) - 1 = (k : Int) := by push_cast; ring
      have h4 : ((k + 1 : Nat) : Int).toNat = k + 1 := by omega
      rw [h3, ih]
      simp only [factorialValue, if_neg hk, h4]

theorem factorial_of_neg (n : Int) (h : n < 0) :
    factorial n = Except.error (JSError.typeError "Negative numbers are not allowed!") := by
  rw [factorial, if_pos h]

theorem excessBits_spec : ∀ (fuel m : Nat), m ≤ fuel →
    m / 2 ^ excessBits fuel m < 2 ^ 53 := by
  intro fuel
  induction fuel with
  | zero =>
    intro m hm
    have : m = 0 := by omega
    subst this
    simp [excessBits]
  | succ f ih =>
    intro m hm
    by_cases hlt : m < 2 ^ 53
    · simp only [excessBits, if_pos hlt, pow_zero, Nat.div_one]
      exact hlt
    · simp only [excessBits, if_neg hlt]
      have hle : m / 2 ≤ f := by
        have : 2 ≤ m := le_trans (by norm_num) (not_lt.1 hlt)
        omega
      have := ih (m / 2) hle
      rw [pow_succ, mul_comm, ← Nat.div_div_eq_div_mul]
      exact this

/-- Every finite value of `roundToDouble` is a significand of at most `2^53` times a
power of two. -/
theorem roundToDouble_significand (m v : Nat) (h : roundToDouble m = DoubleNat.finite v) :
    ∃ q e : Nat, v = q * 2 ^ e ∧ q ≤ 2 ^ 53 := by
  unfold roundToDouble at h
  by_cases hlt : m < 2 ^ 53
  · rw [if_pos hlt] at h
    cases h
    exact ⟨m, 0, by simp, hlt.le⟩
  · rw [if_neg hlt] at h
    simp only at h
    have hq : m >>> excessBits m m < 2 ^ 53 := by
      rw [Nat.shiftRight_eq_div_pow]
      exact excessBits_spec m m (le_refl _)
    split_ifs at h
    all_goals
      injection h with h
      exact ⟨_, excessBits m m, by rw [← h, Nat.shiftLeft_eq], by omega⟩

theorem factorialValue_significand : ∀ (k : Nat) (v : Nat),
    factorialValue k = DoubleNat.finite v → ∃ q e : Nat, v = q * 2 ^ e ∧ q ≤ 2 ^ 53 := by
  intro k
  cases k with
  | zero =>
    intro v h
    simp only [factorialValue] at h
    cases h
    exact ⟨1, 0, by simp, by norm_num⟩
  | succ j =>
    intro v h
    simp only [factorialValue] at h
    split at h
    · cases h
      exact ⟨1, 0, by simp, by norm_num⟩
    · cases hprev : factorialValue j with
      | finite w =>
        rw [hprev] at h
        exact roundToDouble_significand _ _ h
      | infinity =>
        rw [hprev] at h
        cases h

/-- From `23` on, `n!` is no double: its odd part `49308808782358125 * ...` exceeds
`2^53`. -/
theorem factorial_not_significand (k : Nat) (hk : 23 ≤ k) :
    ¬ ∃ q e : Nat, Nat.factorial k = q * 2 ^ e ∧ q ≤ 2 ^ 53 := by
  rintro ⟨q, e, hqe, hq⟩
  have h23 : Nat.factorial 23 = 49308808782358125 * 2 ^ 19 := by decide
  have hdvd : 49308808782358125 ∣ Nat.factorial k :=
    Dvd.dvd.trans ⟨2 ^ 19, h23⟩ (Nat.factorial_dvd_factorial hk)
  rw [hqe] at hdvd
  have hcop : Nat.Coprime 49308808782358125 (2 ^ e) :=
    Nat.Coprime.pow_right e (by norm_num)
  have hdq : 49308808782358125 ∣ q := hcop.dvd_of_dvd_mul_right hdvd
  have hqpos : 0 < q := by
    rcases Nat.eq_zero_or_pos q with h0 | hpos
    · rw [h0, zero_mul] at hqe
      exact absurd hqe (Nat.factorial_pos k).ne'
    · exact hpos
  have := Nat.le_of_dvd hqpos hdq
  norm_num at hq
  omega

/-- Claim C5, counterexample.  The call `factorial(23)` returns the double
`25852016738884978212864`, which is not `23! = 25852016738884976640000`. -/
theorem factorial_23_not_exact :
    factorial 23 = Except.ok (DoubleNat.finite 25852016738884978212864) ∧
    Nat.factorial 23 = 25852016738884976640000 ∧
    factorial 23 ≠ Except.ok (DoubleNat.finite (Nat.factorial 23)) := by
  have hv : factorialValue 23 = DoubleNat.finite 25852016738884978212864 := by decide
  have h : factorial 23 = Except.ok (DoubleNat.finite 25852016738884978212864) := by
    have := factorial_natCast 23
    rw [hv] at this
    exact this
  have hf : Nat.factorial 23 = 25852016738884976640000 := by decide
  refine ⟨h, hf, ?_⟩
  rw [h, hf]
  intro hcon
  injection hcon with hcon
  injection hcon with hcon
  exact absurd hcon (by decide)

/-- Claim C5, amended.  For every integer `n ≥ 0`, `factorial n` returns a number (the
recursion is well founded, so the function is total); for `0 ≤ n ≤ 22` that number is
`n!`, the exact product `1 * 2 * ... * n`; from `n = 23` on the product of doubles is
rounded and the number returned is not `n!`. -/
theorem factorial_exact_up_to_22 (n : Int) (h : 0 ≤ n) :
    (∃ v, factorial n = Except.ok v) ∧
    (n ≤ 22 → factorial n = Except.ok (DoubleNat.finite (Nat.factorial n.toNat))) ∧
    (23 ≤ n → factorial n ≠ Except.ok (DoubleNat.finite (Nat.factorial n.toNat))) := by
  obtain ⟨k, rfl⟩ := Int.eq_ofNat_of_zero_le h
  have hk : ((k : Nat) : Int).toNat = k := by simp
  rw [factorial_natCast, hk]
  refine ⟨⟨_, rfl⟩, ?_, ?_⟩
  · intro h22
    have hk22 : k < 23 := by omega
    have hall : ∀ j < 23, factorialValue j = DoubleNat.finite (Nat.factorial j) := by decide
    rw [hall k hk22]
  · intro h23 hcon
    have hk23 : 23 ≤ k := by omega
    have hval : factorialValue k = DoubleNat.finite (Nat.factorial k) := by
      injection hcon
    exact factorial_not_significand k hk23 (factorialValue_significand k _ hval)

/-- Witness of claim C5 (amended): `factorial(3) = 6`, `factorial(0) = 1`,
`factorial(1) = 1` and `factorial(22) = 22!`. -/
theorem factorial_exact_up_to_22_witness :
    factorial 3 = Except.ok (DoubleNat.finite 6) ∧
    factorial 0 = Except.ok (DoubleNat.finite 1) ∧
    factorial 1 = Except.ok (DoubleNat.finite 1) ∧
    factorial 22 = Except.ok (DoubleNat.finite 1124000727777607680000) :=
  ⟨((factorial_exact_up_to_22 3 (by decide)).2.1 (by decide)).trans rfl,
    ((factorial_exact_up_to_22 0 (by decide)).2.1 (by decide)).trans rfl,
    ((factorial_exact_up_to_22 1 (by decide)).2.1 (by decide)).trans rfl,
    ((factorial_exact_up_to_22 22 (by decide)).2.1 (by decide)).trans rfl⟩

/-- Claim C6.  For every integer `n`, `factorial n` raises an error if and only if
`n < 0`; the error is the `TypeError` of the first branch, raised before any recursive
call, and a call with `n ≥ 0` returns a value, so its recursion never reaches the
throwing branch.  In particular `factorial(-1)` raises. -/
theorem factorial_raises_iff_negative (n : Int) :
    ((∃ e, factorial n = Except.error e) ↔ n < 0) ∧
    (factorial n = Except.error (JSError.typeError "Negative numbers are not allowed!")
      ↔ n < 0) ∧
    ((∃ v, factorial n = Except.ok v) ↔ 0 ≤ n) ∧
    factorial (-1) = Except.error (JSError.typeError "Negative numbers are not allowed!") := by
  have hneg : ∀ m : Int, m < 0 → factorial m =
      Except.error (JSError.typeError "Negative numbers are not allowed!") :=
    factorial_of_neg
  have hnn : ∀ m : Int, 0 ≤ m → factorial m = Except.ok (factorialValue m.toNat) := by
    intro m hm
    obtain ⟨k, rfl⟩ := Int.eq_ofNat_of_zero_le hm
    rw [factorial_natCast]
    simp
  refine ⟨⟨?_, fun h => ⟨_, hneg n h⟩⟩, ⟨?_, hneg n⟩, ⟨?_, fun h => ⟨_, hnn n h⟩⟩,
    hneg (-1) (by decide)⟩
  · rintro ⟨e, he⟩
    by_contra hcon
    rw [hnn n (by omega)] at he
    cases he
  · intro he
    by_contra hcon
    rw [hnn n (by omega)] at he
    cases he
  · rintro ⟨v, hv⟩
    by_contra hcon
    rw [hneg n (by omega)] at hv
    cases hv

set_option maxRecDepth 100000 in
/-- From `n = 171` on the running product overflows: `factorial(170)` is finite and
`factorial(171)` is `Infinity`. -/
theorem factorial_overflows_at_171 :
    factorial 171 = Except.ok DoubleNat.infinity ∧
    factorial 170 ≠ Except.ok DoubleNat.infinity := by
  have h171 : factorialValue 171 = DoubleNat.infinity := by decide
  have h170 : factorialValue 170 ≠ DoubleNat.infinity := by decide
  constructor
  · have := factorial_natCast 171
    rw [h171] at this
    exact this
  · have := factorial_natCast 170
    intro hcon
    have hc : (170 : Int) = ((170 : Nat) : Int) := rfl
    rw [hc, this] at hcon
    injection hcon with hcon
    exact h170 hcon

/-! ## range -/

theorem range_length_aux (a b : Int) : (range a (some b)).length = (a - b).natAbs + 1 := by
  simp only [range, Option.getD_some, List.length_map, List.length_range]
  split <;> omega

theorem range_comm_aux (a b : Int) : range a (some b) = range b (some a) := by
  simp only [range, Option.getD_some]
  rcases lt_trichotomy a b with h | h | h
  · have h1 : ¬ a > b := by omega
    have h2 : b > a := h
    simp only [h1, h2, if_true, if_false]
  · subst h; rfl
  · have h1 : a > b := h
    have h2 : ¬ b > a := by omega
    simp only [h1, h2, if_true, if_false]

theorem range_get_aux (a b : Int) (i : Nat) (h : i < (range a (some b)).length) :
    (range a (some b)).get ⟨i, h⟩ = min a b + i := by
  simp only [range, Option.getD_some, List.get_eq_getElem, List.getElem_map, List.getElem_range]
  split
  · rw [min_eq_right (by omega)]
  · rw [min_eq_left (by omega)]


/-- Claim C7.  For all integers `a` and `b`, `range(a, b)` has length `|a - b| + 1`,
its `i`-th element (counting from `0`) is `min(a, b) + i`, so it lists the integers
from `min(a, b)` to `max(a, b)` in increasing order; `range(a, b) = range(b, a)`; and
with the end omitted the end is `0`.  Documented values: `range(-2, 1)` is
`[-2, -1, 0, 1]`, and `range(5, 2) = range(2, 5)`. -/
theorem range_inclusive_interval (a b : Int) :
    (range a (some b)).length = (a - b).natAbs + 1 ∧
    (∀ i : Nat, i < (a - b).natAbs + 1 → (range a (some b))[i]? = some (min a b + i)) ∧
    (∀ x : Int, x ∈ range a (some b) ↔ min a b ≤ x ∧ x ≤ max a b) ∧
    (range a (some b)).Pairwise (· < ·) ∧
    range a (some b) = range b (some a) ∧
    range a none = range a (some 0) ∧
    range (-2) (some 1) = [-2, -1, 0, 1] ∧
    range 5 (some 2) = range 2 (some 5) := by
  refine ⟨range_length_aux a b, ?_, ?_, ?_, range_comm_aux a b, rfl, by decide, by decide⟩
  · intro i hi
    have hlen : i < (range a (some b)).length := by rw [range_length_aux]; exact hi
    rw [List.getElem?_eq_getElem hlen]
    have := range_get_aux a b i hlen
    rw [List.get_eq_getElem] at this
    rw [this]
  · intro x
    simp only [range, Option.getD_some, List.mem_map, List.mem_range]
    by_cases hab : a > b
    · simp only [hab, if_true]
      rw [min_eq_right (by omega), max_eq_left (by omega)]
      constructor
      · rintro ⟨i, hi, rfl⟩
        omega
      · rintro ⟨h1, h2⟩
        exact ⟨(x - b).toNat, by omega, by omega⟩
    · simp only [hab, if_false]
      rw [min_eq_left (by omega), max_eq_right (by omega)]
      constructor
      · rintro ⟨i, hi, rfl⟩
        omega
      · rintro ⟨h1, h2⟩
        exact ⟨(x - a).toNat, by omega, by omega⟩
  · simp only [range]
    rw [List.pairwise_map]
    refine List.Pairwise.imp ?_ (List.pairwise_lt_range _)
    intro i j hij
    omega

/-! ## round -/

theorem mathRound_close (y : ℚ) : |(mathRound y : ℚ) - y| ≤ 1 / 2 := by
  have h1 := Int.floor_le (y + 1 / 2)
  have h2 := Int.lt_floor_add_one (y + 1 / 2)
  rw [mathRound, abs_le]
  constructor <;> linarith

theorem round_close (x m : ℚ) (hm : m ≠ 0) :
    |(mathRound (x / m) : ℚ) * m - x| ≤ |m| / 2 := by
  have h := mathRound_close (x / m)
  have hx : (mathRound (x / m) : ℚ) * m - x = ((mathRound (x / m) : ℚ) - x / m) * m := by
    field_simp
  rw [hx, abs_mul]
  have hpos : 0 ≤ |m| := abs_nonneg m
  nlinarith

/-- Claim C10.  In exact rational arithmetic, for every number `x` and every non-zero
amount `m`, `round(x, m)` is `k * m` for an integer `k` and lies within `|m| / 2` of
`x`; with the amount omitted the amount is `1` and the result is `Math.round(x)`,
that is `floor(x + 1/2)`. -/
theorem round_nearest_multiple (x m : ℚ) (hm : m ≠ 0) :
    (∃ k : Int, round x (some m) = JSNum.fin ((k : ℚ) * m) ∧
      |(k : ℚ) * m - x| ≤ |m| / 2) ∧
    round x none = round x (some 1) ∧
    round x (some 1) = JSNum.fin ((mathRound x : Int) : ℚ) ∧
    mathRound x = ⌊x + 1 / 2⌋ := by
  refine ⟨⟨mathRound (x / m), ?_, round_close x m hm⟩, rfl, ?_, rfl⟩
  · simp only [round, Option.getD_some, if_neg hm]
  · simp [round]

/-- Witness of claim C10 at `round(14, 10)`, whose value is `10`. -/
theorem round_nearest_multiple_witness :
    round 14 (some 10) = JSNum.fin 10 ∧
    ((∃ k : Int, round 14 (some 10) = JSNum.fin ((k : ℚ) * 10) ∧
      |(k : ℚ) * 10 - 14| ≤ |(10 : ℚ)| / 2) ∧
    round 14 none = round 14 (some 1) ∧
    round 14 (some 1) = JSNum.fin ((mathRound 14 : Int) : ℚ) ∧
    mathRound 14 = ⌊(14 : ℚ) + 1 / 2⌋) :=
  ⟨by simp only [round, Option.getD_some, mathRound]; norm_num,
    round_nearest_multiple 14 10 (by norm_num)⟩

/-! ## equals -/

theorem numStrictEq_self (x : JSNum) (h : x ≠ JSNum.nan) : x.strictEq x = true := by
  cases x with
  | nan => exact absurd rfl h
  | posInf => rfl
  | negInf => rfl
  | fin q => simp [JSNum.strictEq]

theorem strictEq_self (a : JSValue) (h : a ≠ JSValue.num JSNum.nan) :
    strictEq a a = true := by
  cases a with
  | num x =>
    have hx : x ≠ JSNum.nan := fun hx => h (by rw [hx])
    simpa [strictEq] using numStrictEq_self x hx
  | _ => simp [strictEq]

theorem strictEq_undefined_right (a : JSValue) :
    strictEq a JSValue.undefined = true ↔ a = JSValue.undefined := by
  cases a <;> simp [strictEq]

theorem everyKey_eq_true_iff (f : String → Outcome) (ks : List String) :
    everyKey f ks = Outcome.returned true ↔ ∀ k ∈ ks, f k = Outcome.returned true := by
  induction ks with
  | nil => simp [everyKey]
  | cons k t ih =>
    simp only [List.mem_cons, forall_eq_or_imp]
    by_cases hk : f k = Outcome.returned true
    · simp only [everyKey, hk, true_and]
      exact ih
    · simp only [hk, false_and, iff_false]
      intro hcon
      apply hk
      unfold everyKey at hcon
      split at hcon
      · assumption
      · exact hcon

/-- Unfolding of `equals` on two distinct plain objects: when their `prototype`
properties are strictly equal (as they are when neither object has such a key) and
they have the same number of keys, `equals` returns `true` exactly when it returns
`true` on the two values of every key. -/
theorem equals_obj_iff (fuel r1 r2 : Nat) (p1 p2 : List (String × JSValue))
    (hr : r1 ≠ r2)
    (hproto : strictEq (getProp (JSValue.obj r1 p1) "prototype")
      (getProp (JSValue.obj r2 p2) "prototype") = true)
    (hlen : p1.length = p2.length) :
    equals (fuel + 1) (JSValue.obj r1 p1) (JSValue.obj r2 p2) = Outcome.returned true ↔
      ∀ k ∈ ownKeys (JSValue.obj r1 p1),
        equals fuel (getProp (JSValue.obj r1 p1) k) (getProp (JSValue.obj r2 p2) k)
          = Outcome.returned true := by
  rw [← everyKey_eq_true_iff]
  have h1 : strictEq (JSValue.obj r1 p1) (JSValue.obj r2 p2) = false := by
    simp [strictEq, hr]
  have hk : (ownKeys (JSValue.obj r1 p1)).length = (ownKeys (JSValue.obj r2 p2)).length := by
    simp [ownKeys, hlen]
  have h2 : strictEq (JSValue.obj r1 p1) JSValue.undefined = false := rfl
  have h3 : strictEq (JSValue.obj r2 p2) JSValue.undefined = false := rfl
  simp [equals, h1, h2, h3, typeOf, isDate, truthy, typeofJS, hproto, hk]

/-- Two distinct `Date` objects are equal for `equals` exactly when their timestamps
are strictly equal numbers. -/
theorem equals_date (fuel r1 r2 : Nat) (t1 t2 : JSNum) (hr : r1 ≠ r2) :
    equals (fuel + 1) (JSValue.date r1 t1) (JSValue.date r2 t2)
      = Outcome.returned (t1.strictEq t2) := by
  simp [equals, strictEq, typeOf, isDate, getTime, hr]

/-- The values the specification documents for `equals`: `{x:1}` equals `{x:1}`,
`{x:1}` differs from `{x:2}`, and two dates with one timestamp are equal. -/
theorem equals_documented_examples :
    equals 2 (JSValue.obj 1 [("x", numV 1)]) (JSValue.obj 2 [("x", numV 1)])
      = Outcome.returned true ∧
    equals 2 (JSValue.obj 1 [("x", numV 1)]) (JSValue.obj 2 [("x", numV 2)])
      = Outcome.returned false ∧
    equals 1 (JSValue.date 1 (JSNum.fin 1600000000000)) (JSValue.date 2 (JSNum.fin 1600000000000))
      = Outcome.returned true := by
  decide

/-- Claim C8, counterexample.  The call `equals(NaN, NaN)` returns `false`, and it
returns `true` within no budget; the call `equals(undefined, undefined)` raises the
error of the required-parameter helper. -/
theorem equals_nan_not_reflexive :
    equals 1 (JSValue.num JSNum.nan) (JSValue.num JSNum.nan) = Outcome.returned false ∧
    (¬ ∃ fuel, equals fuel (JSValue.num JSNum.nan) (JSValue.num JSNum.nan)
      = Outcome.returned true) ∧
    equals 1 JSValue.undefined JSValue.undefined
      = Outcome.raised (JSError.missingArgument "any" "a") := by
  refine ⟨by decide, ?_, by decide⟩
  rintro ⟨fuel, h⟩
  cases fuel with
  | zero => simp [equals] at h
  | succ k =>
    have : equals (k + 1) (JSValue.num JSNum.nan) (JSValue.num JSNum.nan)
        = Outcome.returned false := by
      simp [equals, strictEq, JSNum.strictEq, typeOf, isDate, truthy]
    rw [this] at h
    cases h

/-- Claim C8, amended.  For every value `a` other than `NaN` and `undefined`
(primitive, date, regular expression, array or object), `equals(a, a)` returns `true`,
within every budget that allows the outermost call. -/
theorem equals_refl_of_ne_nan (a : JSValue) (hu : a ≠ JSValue.undefined)
    (hn : a ≠ JSValue.num JSNum.nan) (fuel : Nat) :
    equals (fuel + 1) a a = Outcome.returned true := by
  have h1 : strictEq a JSValue.undefined = false := by
    cases h : strictEq a JSValue.undefined with
    | false => rfl
    | true => exact absurd ((strictEq_undefined_right a).1 h) hu
  simp [equals, h1, strictEq_self a hn]

/-- Witness of claim C8 (amended) at the object `{thing: "Thing!"}`, at the number
`0`, at the empty string, at `null`, at a date without a valid timestamp and at an
array that contains `NaN`. -/
theorem equals_refl_of_ne_nan_witness :
    equals 1 (JSValue.obj 1 [("thing", JSValue.str "Thing!")])
      (JSValue.obj 1 [("thing", JSValue.str "Thing!")]) = Outcome.returned true ∧
    equals 1 (numV 0) (numV 0) = Outcome.returned true ∧
    equals 1 (JSValue.str "") (JSValue.str "") = Outcome.returned true ∧
    equals 1 JSValue.null JSValue.null = Outcome.returned true ∧
    equals 1 (JSValue.date 7 JSNum.nan) (JSValue.date 7 JSNum.nan) = Outcome.returned true ∧
    equals 1 (JSValue.arr 9 [JSValue.num JSNum.nan]) (JSValue.arr 9 [JSValue.num JSNum.nan])
      = Outcome.returned true :=
  ⟨equals_refl_of_ne_nan _ (by intro h; cases h) (by intro h; cases h) 0,
    equals_refl_of_ne_nan _ (by intro h; cases h) (by intro h; cases h) 0,
    equals_refl_of_ne_nan _ (by intro h; cases h) (by intro h; cases h) 0,
    equals_refl_of_ne_nan _ (by intro h; cases h) (by intro h; cases h) 0,
    equals_refl_of_ne_nan _ (by intro h; cases h) (by intro h; cases h) 0,
    equals_refl_of_ne_nan _ (by intro h; cases h) (by intro h; cases h) 0⟩

/-- Claim C9, divergence of the code from the claim.  The two distinct plain objects
`a = {prototype: {}}` and `b = {prototype: {}}` have the same single own key, whose
values are nested plain objects, and `equals(a[k], b[k])` returns `true` for that key;
yet `equals(a, b)` returns `false`, within every budget, because the guard
`a.prototype !== b.prototype` compares the two nested objects by identity. -/
theorem equals_prototype_key_divergence (fuel : Nat) :
    ownKeys (protoHolder 1 2) = ["prototype"] ∧
    ownKeys (protoHolder 3 4) = ["prototype"] ∧
    getProp (protoHolder 1 2) "prototype" = JSValue.obj 2 [] ∧
    getProp (protoHolder 3 4) "prototype" = JSValue.obj 4 [] ∧
    (∀ k ∈ ownKeys (protoHolder 1 2),
      equals (fuel + 1) (getProp (protoHolder 1 2) k) (getProp (protoHolder 3 4) k)
        = Outcome.returned true) ∧
    equals (fuel + 1) (protoHolder 1 2) (protoHolder 3 4) = Outcome.returned false := by
  refine ⟨rfl, rfl, rfl, rfl, ?_, ?_⟩
  · intro k hk
    have hk' : k = "prototype" := by simpa [ownKeys, protoHolder] using hk
    subst hk'
    rfl
  · rfl

/-! ## gcd: independence of the order of the arguments -/

theorem foldl_min_perm (a a' : Int) (rest rest' : List Int)
    (h : (a :: rest).Perm (a' :: rest')) : rest.foldl min a = rest'.foldl min a' := by
  have h1 := foldl_min_le rest a
  have h2 := foldl_min_le rest' a'
  have m1 := foldl_min_mem rest a
  have m2 := foldl_min_mem rest' a'
  have all1 : ∀ x ∈ a :: rest, rest.foldl min a ≤ x := by
    intro x hx
    rcases List.mem_cons.1 hx with hx | hx
    · rw [hx]; exact h1.1
    · exact h1.2 x hx
  have all2 : ∀ x ∈ a' :: rest', rest'.foldl min a' ≤ x := by
    intro x hx
    rcases List.mem_cons.1 hx with hx | hx
    · rw [hx]; exact h2.1
    · exact h2.2 x hx
  exact le_antisymm (all1 _ (h.mem_iff.2 m2)) (all2 _ (h.mem_iff.1 m1))

theorem foldl_max_perm (a a' : Int) (rest rest' : List Int)
    (h : (a :: rest).Perm (a' :: rest')) : rest.foldl max a = rest'.foldl max a' := by
  have h1 := le_foldl_max rest a
  have h2 := le_foldl_max rest' a'
  have m1 := foldl_max_mem rest a
  have m2 := foldl_max_mem rest' a'
  have all1 : ∀ x ∈ a :: rest, x ≤ rest.foldl max a := by
    intro x hx
    rcases List.mem_cons.1 hx with hx | hx
    · rw [hx]; exact h1.1
    · exact h1.2 x hx
  have all2 : ∀ x ∈ a' :: rest', x ≤ rest'.foldl max a' := by
    intro x hx
    rcases List.mem_cons.1 hx with hx | hx
    · rw [hx]; exact h2.1
    · exact h2.2 x hx
  exact le_antisymm (all2 _ (h.mem_iff.1 m1)) (all1 _ (h.mem_iff.2 m2))

/-- Reordering the array does not change what `getGCD` does within any budget. -/
theorem getGCD_perm : ∀ (fuel : Nat) (l l' : List Int), l.Perm l' →
    getGCD fuel l = getGCD fuel l' := by
  intro fuel
  induction fuel with
  | zero => intro l l' _; simp [getGCD]
  | succ k ih =>
    intro l l' h
    cases l with
    | nil =>
      have : l' = [] := h.nil_eq.symm
      rw [this]
    | cons a rest =>
      cases l' with
      | nil => exact absurd h.eq_nil (by simp)
      | cons a' rest' =>
        have hmin := foldl_min_perm a a' rest rest' h
        have hmax := foldl_max_perm a a' rest rest' h
        simp only [getGCD]
        rw [hmin, hmax]
        split
        · rfl
        · exact ih _ _ (h.map _)

/-- Claim C15.  The outcome of `gcd` does not depend on the order of its arguments:
for all integers `a` and `b`, `gcd(a, b)` and `gcd(b, a)` give the same result within
every budget of recursive calls (the same number, or no return for either), and the
same holds for any reordering of any argument list, in both call forms; and
`gcd(n, n) = n` for every integer `n`. -/
theorem gcd_order_independent :
    (∀ (a b : Int) (fuel : Nat),
      gcd fuel (GcdCall.variadic [a, b]) = gcd fuel (GcdCall.variadic [b, a])) ∧
    (∀ (l l' : List Int), l.Perm l' → ∀ fuel : Nat,
      gcd fuel (GcdCall.variadic l) = gcd fuel (GcdCall.variadic l') ∧
      gcd fuel (GcdCall.single l) = gcd fuel (GcdCall.single l')) ∧
    (∀ (n : Int) (fuel : Nat), gcd (fuel + 1) (GcdCall.variadic [n, n]) = some n) := by
  refine ⟨?_, ?_, ?_⟩
  · intro a b fuel
    exact getGCD_perm fuel _ _ (List.Perm.swap b a [])
  · intro l l' h fuel
    exact ⟨getGCD_perm fuel l l' h, getGCD_perm fuel l l' h⟩
  · intro n fuel
    simp [gcd, getGCD]

/-- Witness of claim C15: `gcd(12, 8) = gcd(8, 12) = 4`, the arguments `12, 4, 8`
give `4` in another order too, `gcd(0, 5)` and `gcd(5, 0)` both fail to return within
a budget of `50` calls, and `gcd(7, 7) = 7`. -/
theorem gcd_order_independent_witness :
    gcd 5 (GcdCall.variadic [12, 8]) = some 4 ∧
    gcd 5 (GcdCall.variadic [8, 12]) = some 4 ∧
    gcd 5 (GcdCall.variadic [8, 12, 4]) = gcd 5 (GcdCall.variadic [12, 4, 8]) ∧
    gcd 50 (GcdCall.variadic [0, 5]) = none ∧
    gcd 50 (GcdCall.variadic [5, 0]) = none ∧
    gcd 1 (GcdCall.variadic [7, 7]) = some 7 :=
  ⟨by decide, by decide,
    (gcd_order_independent.2.1 [8, 12, 4] [12, 4, 8] (by decide) 5).1,
    by decide, by decide, gcd_order_independent.2.2 7 0⟩


/-! ## random -/

theorem random_round_eq (mx mn s : ℚ) :
    random mx mn (some true) s = ((⌊s * (mx - mn + 1) + mn⌋ : Int) : ℚ) ∧
    random mx mn none s = ((⌊s * (mx - mn + 1) + mn⌋ : Int) : ℚ) := by
  constructor <;> simp [random]

/-- Claim C11.  In exact arithmetic, for all integers `min ≤ max` and every seed `s`
with `0 ≤ s < 1`, `random(max, min, true, s)` (also with `round` omitted) is an integer
`r` with `min ≤ r ≤ max`, and every integer of `[min, max]` is the result for some such
seed. -/
theorem random_in_inclusive_range (mn mx : Int) (h : mn ≤ mx) :
    (∀ s : ℚ, 0 ≤ s → s < 1 →
      ∃ r : Int, random mx mn (some true) s = r ∧ random mx mn none s = r ∧
        mn ≤ r ∧ r ≤ mx) ∧
    (∀ r : Int, mn ≤ r → r ≤ mx →
      ∃ s : ℚ, 0 ≤ s ∧ s < 1 ∧ random mx mn (some true) s = r) := by
  have hpos : (0 : ℚ) < (mx : ℚ) - mn + 1 := by
    have : (mn : ℚ) ≤ mx := by exact_mod_cast h
    linarith
  constructor
  · intro s h0 h1
    refine ⟨⌊s * ((mx : ℚ) - mn + 1) + mn⌋, (random_round_eq _ _ _).1,
      (random_round_eq _ _ _).2, ?_, ?_⟩
    · apply Int.le_floor.2
      have := mul_nonneg h0 hpos.le
      linarith
    · have hlt : s * ((mx : ℚ) - mn + 1) + mn < ((mx + 1 : Int) : ℚ) := by
        have := mul_lt_mul_of_pos_right h1 hpos
        push_cast
        linarith
      have := Int.floor_lt.2 hlt
      omega
  · intro r hr1 hr2
    have hr1' : (mn : ℚ) ≤ r := by exact_mod_cast hr1
    have hr2' : (r : ℚ) ≤ mx := by exact_mod_cast hr2
    refine ⟨((r : ℚ) - mn) / ((mx : ℚ) - mn + 1), ?_, ?_, ?_⟩
    · exact div_nonneg (by linarith) hpos.le
    · rw [div_lt_one hpos]; linarith
    · rw [(random_round_eq _ _ _).1, div_mul_cancel₀ _ hpos.ne']
      have : (r : ℚ) - mn + mn = r := by ring
      rw [this, Int.floor_intCast]

/-- Witness of claim C11 at `min = 0`, `max = 100`: the seed `1/2` gives `50`. -/
theorem random_in_inclusive_range_witness :
    random 100 0 (some true) (1 / 2) = 50 ∧
    ((∀ s : ℚ, 0 ≤ s → s < 1 →
      ∃ r : Int, random ((100 : Int) : ℚ) ((0 : Int) : ℚ) (some true) s = r ∧
        random ((100 : Int) : ℚ) ((0 : Int) : ℚ) none s = r ∧ 0 ≤ r ∧ r ≤ 100) ∧
    (∀ r : Int, 0 ≤ r → r ≤ 100 →
      ∃ s : ℚ, 0 ≤ s ∧ s < 1 ∧
        random ((100 : Int) : ℚ) ((0 : Int) : ℚ) (some true) s = r)) :=
  ⟨by simp only [random, Option.getD_some, if_true]; norm_num,
    random_in_inclusive_range 0 100 (by decide)⟩

/-- Claim C12, divergence of the code from the claim.  Called in the documented
order, lowest value first, as in `random(0, 100)`, the lowest value is bound to the
parameter `max` and the highest to `min`: for integers `lo < hi` and every seed `s`
with `0 ≤ s < 1` the result is an integer `r` with `lo < r ≤ hi`, so no seed gives
`lo`. -/
theorem random_documented_order_never_lowest (lo hi : Int) (h : lo < hi) (s : ℚ)
    (h0 : 0 ≤ s) (h1 : s < 1) :
    ∃ r : Int, random lo hi (some true) s = r ∧ random lo hi none s = r ∧
      lo < r ∧ r ≤ hi := by
  have hd : (0 : ℚ) ≤ (hi : ℚ) - lo - 1 := by
    have : ((lo + 1 : Int) : ℚ) ≤ hi := by exact_mod_cast h
    push_cast at this
    linarith
  have hsd : s * ((hi : ℚ) - lo - 1) ≤ (hi : ℚ) - lo - 1 :=
    mul_le_of_le_one_left hd h1.le
  have hsd0 : 0 ≤ s * ((hi : ℚ) - lo - 1) := mul_nonneg h0 hd
  have hout : s * ((lo : ℚ) - hi + 1) + hi = hi - s * ((hi : ℚ) - lo - 1) := by ring
  refine ⟨⌊s * ((lo : ℚ) - hi + 1) + hi⌋, (random_round_eq _ _ _).1,
    (random_round_eq _ _ _).2, ?_, ?_⟩
  · have : lo + 1 ≤ ⌊s * ((lo : ℚ) - hi + 1) + hi⌋ := by
      apply Int.le_floor.2
      rw [hout]
      push_cast
      linarith
    omega
  · have hlt : s * ((lo : ℚ) - hi + 1) + hi < ((hi + 1 : Int) : ℚ) := by
      rw [hout]
      push_cast
      linarith
    have := Int.floor_lt.2 hlt
    omega

/-- Witness of claim C12 at the documented call `random(0, 100)`: the seed `0`
gives `100`, the seed `99/100` gives `1`, and the result is never `0`. -/
theorem random_documented_order_never_lowest_witness :
    random 0 100 (some true) 0 = 100 ∧
    random 0 100 (some true) (99 / 100) = 1 ∧
    (∃ r : Int, random ((0 : Int) : ℚ) ((100 : Int) : ℚ) (some true) (1 / 2) = r ∧
      random ((0 : Int) : ℚ) ((100 : Int) : ℚ) none (1 / 2) = r ∧ 0 < r ∧ r ≤ 100) :=
  ⟨by simp only [random, Option.getD_some, if_true]; norm_num,
    by simp only [random, Option.getD_some, if_true]; norm_num,
    random_documented_order_never_lowest 0 100 (by decide) (1 / 2) (by norm_num)
      (by norm_num)⟩

/-! ## seedRandom -/

theorem toUint32_lt (x : Int) : toUint32 x < 4294967296 := by
  unfold toUint32
  have h1 : 0 ≤ x % 4294967296 := Int.emod_nonneg _ (by decide)
  have h2 : x % 4294967296 < 4294967296 := Int.emod_lt_of_pos _ (by decide)
  omega

theorem jsUshr_range (a : Int) (k : Nat) : 0 ≤ jsUshr a k ∧ jsUshr a k < 4294967296 := by
  unfold jsUshr
  have h := toUint32_lt a
  have hle : toUint32 a >>> (k % 32) ≤ toUint32 a := by
    rw [Nat.shiftRight_eq_div_pow]
    exact Nat.div_le_self _ _
  constructor
  · exact Int.natCast_nonneg _
  · have : toUint32 a >>> (k % 32) < 4294967296 := lt_of_le_of_lt hle h
    exact_mod_cast this

theorem seedRandomBits_range (seed : Int) :
    0 ≤ seedRandomBits seed ∧ seedRandomBits seed < 4294967296 :=
  jsUshr_range _ 0

/-- Claim C13.  For every integer seed, `seedRandom(seed)` is `k / 2^32` for an
integer `k` with `0 ≤ k < 2^32` that is a function of the seed alone (every step is a
32-bit operation on the seed), hence a number in `[0, 1)`; equal seeds give equal
values.  The documented value `seedRandom(13) = 0.5663226493634284` is
`2432337258 / 2^32`. -/
theorem seedRandom_unit_interval (seed : Int) :
    (∃ k : Int, 0 ≤ k ∧ k < 2 ^ 32 ∧ k = seedRandomBits seed ∧
      seedRandom seed = (k : ℚ) / 2 ^ 32) ∧
    0 ≤ seedRandom seed ∧ seedRandom seed < 1 ∧
    (∀ other : Int, other = seed → seedRandom other = seedRandom seed) ∧
    seedRandom 13 = 2432337258 / 4294967296 := by
  obtain ⟨h0, h1⟩ := seedRandomBits_range seed
  have h0' : (0 : ℚ) ≤ (seedRandomBits seed : ℚ) := by exact_mod_cast h0
  have h1' : (seedRandomBits seed : ℚ) < 4294967296 := by exact_mod_cast h1
  refine ⟨⟨seedRandomBits seed, h0, by norm_num; exact h1, rfl, by norm_num [seedRandom]⟩,
    ?_, ?_, ?_, ?_⟩
  · exact div_nonneg h0' (by norm_num)
  · unfold seedRandom
    rw [div_lt_one (by norm_num)]
    exact h1'
  · intro other ho
    rw [ho]
  · have : seedRandomBits 13 = 2432337258 := by decide
    simp [seedRandom, this]

/-! ## formatNumber -/

theorem toDigitsCore_digits : ∀ (fuel n : Nat) (ds : List Char),
    (∀ c ∈ ds, c.isDigit = true) → ∀ c ∈ Nat.toDigitsCore 10 fuel n ds, c.isDigit = true := by
  intro fuel
  induction fuel with
  | zero => intro n ds h; simpa [Nat.toDigitsCore] using h
  | succ k ih =>
    intro n ds h
    have hd : (Nat.digitChar (n % 10)).isDigit = true := by
      have hlt : n % 10 < 10 := Nat.mod_lt _ (by decide)
      have hall : ∀ d < 10, (Nat.digitChar d).isDigit = true := by decide
      exact hall _ hlt
    have hcons : ∀ c ∈ Nat.digitChar (n % 10) :: ds, c.isDigit = true := by
      intro c hc
      rcases List.mem_cons.1 hc with hc | hc
      · rw [hc]; exact hd
      · exact h c hc
    simp only [Nat.toDigitsCore]
    split
    · exact hcons
    · exact ih _ _ hcons

theorem toDigitsCore_ne_nil (fuel n : Nat) (ds : List Char) :
    Nat.toDigitsCore 10 (fuel + 1) n ds ≠ [] := by
  have key : ∀ (k m : Nat) (es : List Char), es ≠ [] → Nat.toDigitsCore 10 k m es ≠ [] := by
    intro k
    induction k with
    | zero => intro m es h; simpa [Nat.toDigitsCore] using h
    | succ j ih =>
      intro m es _
      simp only [Nat.toDigitsCore]
      split
      · simp
      · exact ih _ _ (by simp)
  simp only [Nat.toDigitsCore]
  split
  · simp
  · exact key _ _ _ (by simp)

/-- The decimal representation of a natural number is a non-empty string of
digits. -/
theorem natRepr_digits (m : Nat) :
    (toString m).toList ≠ [] ∧ ∀ c ∈ (toString m).toList, c.isDigit = true := by
  have h : (toString m).toList = Nat.toDigits 10 m := rfl
  rw [h]
  exact ⟨toDigitsCore_ne_nil _ _ _, toDigitsCore_digits _ _ _ (by simp)⟩

/-- The decimal representation of an integer is that of its absolute value, after
a minus sign when the integer is negative. -/
theorem intRepr_toList (n : Int) :
    (toString n).toList =
      (if n < 0 then ['-'] else []) ++ (toString n.natAbs).toList := by
  cases n with
  | ofNat m =>
    have h1 : ¬ (Int.ofNat m < 0) := by simp
    have h2 : toString (Int.ofNat m) = toString m := rfl
    rw [if_neg h1, h2]
    rfl
  | negSucc m =>
    have h1 : Int.negSucc m < 0 := Int.negSucc_lt_zero m
    have h2 : toString (Int.negSucc m) = "-" ++ toString (m + 1) := rfl
    rw [if_pos h1, h2]
    simp [Int.natAbs]

theorem leadingDigits_of_digits (ds : List Char) (h : ∀ c ∈ ds, c.isDigit = true) :
    leadingDigits ds = ds.length := by
  induction ds with
  | nil => rfl
  | cons c t ih =>
    have hc : c.isDigit = true := h c (List.mem_cons_self _ _)
    simp [leadingDigits, hc, ih fun x hx => h x (List.mem_cons_of_mem _ hx)]

/-- On a non-empty string of digits `insertCommas` writes the digits in groups
separated by commas: the first group has `(length - 1) % 3 + 1` digits and every other
group has three. -/
theorem insertCommas_digits (ds : List Char) (hne : ds ≠ [])
    (h : ∀ c ∈ ds, c.isDigit = true) :
    ∃ (g : List Char) (gs : List (List Char)),
      insertCommas ds = List.intercalate [','] (g :: gs) ∧
      (g :: gs).flatten = ds ∧
      g.length = (ds.length - 1) % 3 + 1 ∧ ∀ x ∈ gs, x.length = 3 := by
  induction ds with
  | nil => exact absurd rfl hne
  | cons a rest ih =>
    have ha : a.isDigit = true := h a (List.mem_cons_self _ _)
    have hrest : ∀ c ∈ rest, c.isDigit = true := fun x hx => h x (List.mem_cons_of_mem _ hx)
    cases rest with
    | nil =>
      refine ⟨[a], [], ?_, by simp, by simp, by simp⟩
      simp [insertCommas, groupsOfThreeAhead, leadingDigits, List.intercalate]
    | cons b t =>
      obtain ⟨g, gs, hins, hflat, hlen, hthree⟩ := ih (by simp) hrest
      have hlead := leadingDigits_of_digits (b :: t) hrest
      by_cases hmod : (b :: t).length % 3 = 0
      · have hlook : groupsOfThreeAhead (b :: t) = true := by
          simp only [groupsOfThreeAhead, hlead, hmod]
          simp
        refine ⟨[a], g :: gs, ?_, ?_, ?_, ?_⟩
        · rw [insertCommas, ha, hlook]
          simp only [Bool.and_self, if_true, hins]
          simp [List.intercalate]
        · simp only [List.flatten_cons] at hflat ⊢
          rw [hflat]; rfl
        · simp only [List.length_cons] at hmod ⊢
          simp only [List.length_nil]
          omega
        · intro x hx
          rcases List.mem_cons.1 hx with hx | hx
          · rw [hx, hlen]
            simp only [List.length_cons] at hmod ⊢
            omega
          · exact hthree x hx
      · have hlook : groupsOfThreeAhead (b :: t) = false := by
          simp only [groupsOfThreeAhead, hlead, hmod]
          simp
        refine ⟨a :: g, gs, ?_, ?_, ?_, hthree⟩
        · rw [insertCommas, ha, hlook]
          simp only [Bool.and_false, Bool.false_eq_true, if_false, hins]
          cases gs <;> simp [List.intercalate]
        · simp only [List.flatten_cons] at hflat ⊢
          rw [List.cons_append, hflat]
        · simp only [List.length_cons] at hmod hlen ⊢
          omega

theorem insertCommas_filter (cs : List Char) (h : ∀ c ∈ cs, c ≠ ',') :
    (insertCommas cs).filter (fun c => c != ',') = cs := by
  induction cs with
  | nil => rfl
  | cons a t ih =>
    have ha : a ≠ ',' := h a (List.mem_cons_self _ _)
    have iht := ih fun x hx => h x (List.mem_cons_of_mem _ hx)
    rw [insertCommas]
    split <;> simp [ha, iht]

theorem insertCommas_minus (ds : List Char) :
    insertCommas ('-' :: ds) = '-' :: insertCommas ds := by
  rw [insertCommas]
  have : ('-' : Char).isDigit = false := by decide
  simp [this]

theorem insertCommas_short (ds : List Char) (h : ∀ c ∈ ds, c.isDigit = true)
    (hlen : ds.length ≤ 3) : insertCommas ds = ds := by
  match ds, h, hlen with
  | [], _, _ => rfl
  | [a], _, _ => simp [insertCommas, groupsOfThreeAhead, leadingDigits]
  | [a, b], h, _ =>
    have hb : b.isDigit = true := h b (by simp)
    simp [insertCommas, groupsOfThreeAhead, leadingDigits, hb]
  | [a, b, c], h, _ =>
    have hb : b.isDigit = true := h b (by simp)
    have hc : c.isDigit = true := h c (by simp)
    simp [insertCommas, groupsOfThreeAhead, leadingDigits, hb, hc]
  | _ :: _ :: _ :: _ :: _, _, hlen => simp at hlen

/-- Claim C14.  For every integer `n`, `formatNumber(n)` is the decimal representation
of `n` (a minus sign for a negative `n`, then the digits of `|n|`) with the digits
written in groups separated by commas: the leftmost group has one to three digits and
every other group has exactly three.  Removing the commas gives back the decimal
representation of `n`; no comma is inserted when `n` has at most three digits; and
`formatNumber(100000000) = "100,000,000"`. -/
theorem formatNumber_thousands_groups (n : Int) :
    (∃ (g : List Char) (gs : List (List Char)),
      (formatNumber n).toList =
        (if n < 0 then ['-'] else []) ++ List.intercalate [','] (g :: gs) ∧
      (g :: gs).flatten = (toString n.natAbs).toList ∧
      1 ≤ g.length ∧ g.length ≤ 3 ∧ (∀ x ∈ gs, x.length = 3) ∧
      ∀ x ∈ g :: gs, ∀ c ∈ x, c.isDigit = true) ∧
    (formatNumber n).toList.filter (fun c => c != ',') = (toString n).toList ∧
    ((toString n.natAbs).length ≤ 3 → formatNumber n = toString n) ∧
    formatNumber 100000000 = "100,000,000" ∧
    formatNumber (-1234567) = "-1,234,567" ∧
    formatNumber 999 = "999" := by
  obtain ⟨hne, hdig⟩ := natRepr_digits n.natAbs
  have hrepr := intRepr_toList n
  have hfmt : (formatNumber n).toList = insertCommas (toString n).toList := rfl
  have hsplit : insertCommas (toString n).toList =
      (if n < 0 then ['-'] else []) ++ insertCommas (toString n.natAbs).toList := by
    rw [hrepr]
    by_cases hn : n < 0
    · simp only [hn, if_true]
      exact insertCommas_minus _
    · simp only [hn, if_false, List.nil_append]
  have hcomma : ∀ c ∈ (toString n).toList, c ≠ ',' := by
    intro c hc hcon
    rw [hrepr, List.mem_append] at hc
    rcases hc with hc | hc
    · by_cases hn : n < 0
      · simp only [hn, if_true, List.mem_singleton] at hc
        rw [hcon] at hc
        exact absurd hc (by decide)
      · simp [hn] at hc
    · have := hdig c hc
      rw [hcon] at this
      exact absurd this (by decide)
  refine ⟨?_, ?_, ?_, by decide, by decide, by decide⟩
  · obtain ⟨g, gs, hins, hflat, hlen, hthree⟩ :=
      insertCommas_digits (toString n.natAbs).toList hne hdig
    refine ⟨g, gs, ?_, hflat, by omega, ?_, hthree, ?_⟩
    · rw [hfmt, hsplit, hins]
    · have := Nat.mod_lt ((toString n.natAbs).toList.length - 1) (by decide : 0 < 3)
      omega
    · intro x hx c hc
      apply hdig
      rw [← hflat]
      exact List.mem_flatten.2 ⟨x, hx, hc⟩
  · rw [hfmt]
    exact insertCommas_filter _ hcomma
  · intro hlen
    have hshort := insertCommas_short (toString n.natAbs).toList hdig hlen
    have hl : (formatNumber n).toList = (toString n).toList := by
      rw [hfmt, hsplit, hshort, ← hrepr]
    exact String.ext hl

/-! ## animate -/

theorem sessionInv_step (c : AnimateCall) (s : SessionState) (fired : Bool)
    (h : SessionInv c s fired) (e : TimerEvent) :
    SessionInv c (sessionStep c s e)
      (fired || hasDeadline [e]) := by
  obtain ⟨hp, hi, ticks, hticks, hcalls⟩ := h
  cases e with
  | tick now1 now2 =>
    have hd : hasDeadline [TimerEvent.tick now1 now2] = false := rfl
    rw [hd, Bool.or_false]
    cases fired with
    | true =>
      have hia := hi rfl
      simp only [sessionStep, hia]
      exact ⟨hp, hi, ticks, hticks, hcalls⟩
    | false =>
      cases hact : s.intervalActive with
      | false =>
        simp only [sessionStep, hact]
        exact ⟨hp, hi, ticks, hticks, hcalls⟩
      | true =>
        simp only [sessionStep, hact, if_true]
        refine ⟨hp, fun hcon => absurd hcon (by simp), ?_⟩
        refine ⟨ticks ++ [CallbackCall.fromTick (tickArgs c now1 now2)], ?_, ?_⟩
        · intro x hx
          rcases List.mem_append.1 hx with hx | hx
          · exact hticks x hx
          · rw [List.mem_singleton.1 hx]; rfl
        · simp only [hcalls]
          simp
  | deadline =>
    have hd : hasDeadline [TimerEvent.deadline] = true := rfl
    rw [hd, Bool.or_true]
    cases fired with
    | true =>
      have hpend : s.deadlinePending = false := by simpa using hp
      simp only [sessionStep, hpend]
      exact ⟨hp, hi, ticks, hticks, hcalls⟩
    | false =>
      have hpend : s.deadlinePending = true := by simpa using hp
      simp only [sessionStep, hpend, if_true]
      refine ⟨rfl, fun _ => rfl, ticks, hticks, ?_⟩
      simp only [hcalls]
      simp
  | clearReturnedHandle =>
    have hd : hasDeadline [TimerEvent.clearReturnedHandle] = false := rfl
    rw [hd, Bool.or_false]
    exact ⟨hp, fun _ => rfl, ticks, hticks, hcalls⟩

theorem sessionInv_run (c : AnimateCall) : ∀ (trace : List TimerEvent) (s : SessionState)
    (fired : Bool), SessionInv c s fired →
    SessionInv c (sessionRun c s trace) (fired || hasDeadline trace) := by
  intro trace
  induction trace with
  | nil =>
    intro s fired h
    have : hasDeadline [] = false := rfl
    rw [this, Bool.or_false]
    exact h
  | cons e t ih =>
    intro s fired h
    have hstep := sessionInv_step c s fired h e
    have hrun := ih _ _ hstep
    have hor : (fired || hasDeadline [e] || hasDeadline t) = (fired || hasDeadline (e :: t)) := by
      simp [hasDeadline, Bool.or_assoc]
    rw [hor] at hrun
    exact hrun

/-- Claim C16.  A session of `animate` as a state machine over timer events.  When
the deadline event fires while the timeout is pending, the interval is cleared and
`callback(end, 1)` is called.  Along every trace of events from the initial state, the
calls of `callback` made are calls of the interval handler followed, exactly when the
trace contains the deadline event, by one single call `callback(end, 1)`: the terminal
call happens exactly once and no call from a tick comes after it. -/
theorem animate_terminal_call_once (c : AnimateCall) :
    (∀ s : SessionState, s.deadlinePending = true →
      (sessionStep c s TimerEvent.deadline).intervalActive = false ∧
      (sessionStep c s TimerEvent.deadline).deadlinePending = false ∧
      (sessionStep c s TimerEvent.deadline).calls =
        s.calls ++ [CallbackCall.fromDeadline c.stop 1]) ∧
    (∀ trace : List TimerEvent,
      ∃ ticks : List CallbackCall, (∀ x ∈ ticks, x.isTick = true) ∧
        (sessionRun c SessionState.initial trace).calls =
          ticks ++ (if hasDeadline trace then [CallbackCall.fromDeadline c.stop 1] else []) ∧
        ((sessionRun c SessionState.initial trace).calls.filter
            fun x => !x.isTick).length = (if hasDeadline trace then 1 else 0) ∧
        (hasDeadline trace = true →
          (sessionRun c SessionState.initial trace).intervalActive = false)) := by
  constructor
  · intro s hs
    simp [sessionStep, hs]
  · intro trace
    have hinit : SessionInv c SessionState.initial false :=
      ⟨rfl, fun h => absurd h (by simp), [], by simp, rfl⟩
    obtain ⟨_, hi, ticks, hticks, hcalls⟩ := sessionInv_run c trace _ _ hinit
    rw [Bool.false_or] at hi hcalls
    refine ⟨ticks, hticks, hcalls, ?_, hi⟩
    rw [hcalls, List.filter_append]
    have hnone : ticks.filter (fun x => !x.isTick) = [] := by
      apply List.filter_eq_nil_iff.2
      intro x hx
      simp [hticks x hx]
    rw [hnone]
    cases hasDeadline trace <;> simp [CallbackCall.isTick]

/-- The arguments of a tick in general: the value comes from the first clock read and
the percentage from the second. -/
theorem tickArgs_two_reads (c : AnimateCall) (hd : c.duration ≠ 0) (now1 now2 : ℚ) :
    tickArgs c now1 now2 =
      some (c.num ((now1 - c.startTime) / c.duration) * (c.stop - c.start) + c.start,
        c.num ((now2 - c.startTime) / c.duration)) := by
  simp [tickArgs, hd]

/-- When both clock reads of a tick return the same time, the value passed to the
callback is `p * (end - start) + start` for the percentage `p` passed with it; with
the identity easing the value is `start` at elapsed time `0` and `end` at elapsed time
`duration`, whatever the order of `start` and `end`. -/
theorem tickArgs_single_read (c : AnimateCall) (hd : c.duration ≠ 0) (now : ℚ) :
    (∃ p : ℚ, p = c.num ((now - c.startTime) / c.duration) ∧
      tickArgs c now now = some (p * (c.stop - c.start) + c.start, p)) ∧
    (∀ start stop duration interval startTime : ℚ, duration ≠ 0 →
      tickArgs (AnimateCall.mk start stop duration interval (fun x => x) startTime)
          startTime startTime = some (start, 0) ∧
      tickArgs (AnimateCall.mk start stop duration interval (fun x => x) startTime)
          (startTime + duration) (startTime + duration) = some (stop, 1)) := by
  constructor
  · exact ⟨_, rfl, tickArgs_two_reads c hd now now⟩
  · intro start stop duration interval startTime hdur
    constructor
    · simp [tickArgs, hdur]
    · simp [tickArgs, hdur]

/-- Claim C17, divergence of the code from the claim.  In the session
`animate(0, 100, 1000, callback, 20)` with the default easing, a tick whose first read
of `Date.now()` is `499` ms after the start and whose second read is `500` ms after it
calls `callback(49.9, 0.5)`: the value `49.9` is not `0.5 * (100 - 0) + 0 = 50`, the
value that belongs to the percentage passed with it. -/
theorem tick_value_from_earlier_read :
    tickArgs (AnimateCall.mk 0 100 1000 20 (fun x => x) 0) 499 500
      = some (499 / 10, 1 / 2) ∧
    (1 / 2 : ℚ) * (100 - 0) + 0 = 50 ∧
    (499 / 10 : ℚ) ≠ (1 / 2 : ℚ) * (100 - 0) + 0 := by
  refine ⟨?_, by norm_num, by norm_num⟩
  simp only [tickArgs]
  norm_num

/-! ## Easing curves -/

/-- Exact real arithmetic provides the facts of `MathFns.Exact`. -/
theorem realMath_exact :
    MathFns.Exact (MathFns.mk Real.pi Real.sin Real.cos Real.sqrt fun x y => x ^ y) where
  cos_zero := Real.cos_zero
  cos_half_pi := Real.cos_pi_div_two
  cos_pi := Real.cos_pi
  sin_zero := Real.sin_zero
  sin_half_pi := Real.sin_pi_div_two
  sqrt_zero := Real.sqrt_zero
  sqrt_one := Real.sqrt_one
  pow_two_zero := Real.rpow_zero 2
  pow_sq := fun x => by
    show x ^ (2 : ℝ) = x * x
    rw [Real.rpow_two, sq]
  pow_cube := fun x => by
    show x ^ (3 : ℝ) = x * x * x
    have h : (3 : ℝ) = ((3 : ℕ) : ℝ) := by norm_num
    rw [h, Real.rpow_natCast]
    ring

/-- Values at `0` and `1` of the curves of the catalog other than `easeInOutCirc`
and `easeOutBack`, in exact arithmetic: each starts at `0` and ends at `1`; and
`easeInOutCirc` ends at `1`. -/
theorem ease_boundaries_of_exact {K : Type} [LinearOrderedField K] (M : MathFns K)
    (h : M.Exact) :
    (linear (0 : K) = 0 ∧ linear (1 : K) = 1) ∧
    (easeInSine M 0 = 0 ∧ easeInSine M 1 = 1) ∧
    (easeOutSine M 0 = 0 ∧ easeOutSine M 1 = 1) ∧
    (easeInOutSine M 0 = 0 ∧ easeInOutSine M 1 = 1) ∧
    (easeInQuad (0 : K) = 0 ∧ easeInQuad (1 : K) = 1) ∧
    (easeOutQuad (0 : K) = 0 ∧ easeOutQuad (1 : K) = 1) ∧
    (easeInOutQuad (0 : K) = 0 ∧ easeInOutQuad (1 : K) = 1) ∧
    (easeInCubic (0 : K) = 0 ∧ easeInCubic (1 : K) = 1) ∧
    (easeOutCubic (0 : K) = 0 ∧ easeOutCubic (1 : K) = 1) ∧
    (easeInOutCubic (0 : K) = 0 ∧ easeInOutCubic (1 : K) = 1) ∧
    (easeInQuart (0 : K) = 0 ∧ easeInQuart (1 : K) = 1) ∧
    (easeOutQuart (0 : K) = 0 ∧ easeOutQuart (1 : K) = 1) ∧
    (easeInOutQuart (0 : K) = 0 ∧ easeInOutQuart (1 : K) = 1) ∧
    (easeInQuint (0 : K) = 0 ∧ easeInQuint (1 : K) = 1) ∧
    (easeOutQuint (0 : K) = 0 ∧ easeOutQuint (1 : K) = 1) ∧
    (easeInOutQuint (0 : K) = 0 ∧ easeInOutQuint (1 : K) = 1) ∧
    (easeInExpo M 0 = 0 ∧ easeInExpo M 1 = 1) ∧
    (easeOutExpo M 0 = 0 ∧ easeOutExpo M 1 = 1) ∧
    (easeInOutExpo M 0 = 0 ∧ easeInOutExpo M 1 = 1) ∧
    (easeInCirc M 0 = 0 ∧ easeInCirc M 1 = 1) ∧
    (easeOutCirc M 0 = 0 ∧ easeOutCirc M 1 = 1) ∧
    (easeInBack (0 : K) = 0 ∧ easeInBack (1 : K) = 1) ∧
    (easeInOutBack M 0 = 0 ∧ easeInOutBack M 1 = 1) ∧
    (easeInElastic M 0 = 0 ∧ easeInElastic M 1 = 1) ∧
    (easeOutElastic M 0 = 0 ∧ easeOutElastic M 1 = 1) ∧
    (easeInOutElastic M 0 = 0 ∧ easeInOutElastic M 1 = 1) ∧
    (easeInBounce (0 : K) = 0 ∧ easeInBounce (1 : K) = 1) ∧
    (easeOutBounce (0 : K) = 0 ∧ easeOutBounce (1 : K) = 1) ∧
    (easeInOutBounce (0 : K) = 0 ∧ easeInOutBounce (1 : K) = 1) ∧
    easeInOutCirc M 1 = 1 := by
  have hb0 : easeOutBounce (0 : K) = 0 := by norm_num [easeOutBounce]
  have hb1 : easeOutBounce (1 : K) = 1 := by norm_num [easeOutBounce]
  refine ⟨⟨rfl, rfl⟩, ⟨?_, ?_⟩, ⟨?_, ?_⟩, ⟨?_, ?_⟩, ⟨?_, ?_⟩, ⟨?_, ?_⟩, ⟨?_, ?_⟩, ⟨?_, ?_⟩,
    ⟨?_, ?_⟩, ⟨?_, ?_⟩, ⟨?_, ?_⟩, ⟨?_, ?_⟩, ⟨?_, ?_⟩, ⟨?_, ?_⟩, ⟨?_, ?_⟩, ⟨?_, ?_⟩,
    ⟨?_, ?_⟩, ⟨?_, ?_⟩, ⟨?_, ?_⟩, ⟨?_, ?_⟩, ⟨?_, ?_⟩, ⟨?_, ?_⟩, ⟨?_, ?_⟩, ⟨?_, ?_⟩,
    ⟨?_, ?_⟩, ⟨?_, ?_⟩, ⟨?_, ?_⟩, ⟨hb0, hb1⟩, ⟨?_, ?_⟩, ?_⟩
  · simp [easeInSine, h.cos_zero]
  · simp [easeInSine, h.cos_half_pi]
  · simp [easeOutSine, h.sin_zero]
  · simp [easeOutSine, h.sin_half_pi]
  · simp [easeInOutSine, h.cos_zero]
  · norm_num [easeInOutSine, h.cos_pi]
  · norm_num [easeInQuad]
  · norm_num [easeInQuad]
  · norm_num [easeOutQuad]
  · norm_num [easeOutQuad]
  · norm_num [easeInOutQuad]
  · norm_num [easeInOutQuad]
  · norm_num [easeInCubic]
  · norm_num [easeInCubic]
  · norm_num [easeOutCubic]
  · norm_num [easeOutCubic]
  · norm_num [easeInOutCubic]
  · norm_num [easeInOutCubic]
  · norm_num [easeInQuart]
  · norm_num [easeInQuart]
  · norm_num [easeOutQuart]
  · norm_num [easeOutQuart]
  · norm_num [easeInOutQuart]
  · norm_num [easeInOutQuart]
  · norm_num [easeInQuint]
  · norm_num [easeInQuint]
  · norm_num [easeOutQuint]
  · norm_num [easeOutQuint]
  · norm_num [easeInOutQuint]
  · norm_num [easeInOutQuint]
  · simp [easeInExpo]
  · norm_num [easeInExpo, h.pow_two_zero]
  · norm_num [easeOutExpo, h.pow_two_zero]
  · simp [easeOutExpo]
  · simp [easeInOutExpo]
  · simp [easeInOutExpo]
  · norm_num [easeInCirc, h.sqrt_one]
  · norm_num [easeInCirc, h.sqrt_zero]
  · norm_num [easeOutCirc, h.sqrt_zero]
  · norm_num [easeOutCirc, h.sqrt_one]
  · norm_num [easeInBack]
  · norm_num [easeInBack]
  · norm_num [easeInOutBack]
  · norm_num [easeInOutBack, h.pow_sq]
  · simp [easeInElastic]
  · simp [easeInElastic]
  · simp [easeOutElastic]
  · simp [easeOutElastic]
  · simp [easeInOutElastic]
  · simp [easeInOutElastic]
  · norm_num [easeInBounce, hb1]
  · norm_num [easeInBounce, hb0]
  · norm_num [easeInOutBounce, hb1]
  · norm_num [easeInOutBounce, hb1]
  · norm_num [easeInOutCirc, h.pow_sq, h.sqrt_one]

/-- Claim C18, divergence of the code from the claim.  In exact arithmetic, where
`Math.sqrt(1) = 1`, the curve `easeInOutCirc` does not start at `0`: its value at `0`
is `1 - Math.sqrt(1) / 2 = 1/2`. -/
theorem easeInOutCirc_starts_at_half {K : Type} [LinearOrderedField K] (M : MathFns K)
    (h : M.sqrt 1 = 1) : easeInOutCirc M 0 = 1 / 2 ∧ easeInOutCirc M 0 ≠ 0 := by
  have hv : easeInOutCirc M 0 = 1 / 2 := by
    norm_num [easeInOutCirc, h]
  exact ⟨hv, by rw [hv]; norm_num⟩

/-- Witness of claim C18 over the real numbers, with the real square root. -/
theorem easeInOutCirc_starts_at_half_witness :
    Real.sqrt 1 = 1 ∧
    easeInOutCirc (MathFns.mk Real.pi Real.sin Real.cos Real.sqrt fun x y => x ^ y) 0
      = 1 / 2 ∧
    easeInOutCirc (MathFns.mk Real.pi Real.sin Real.cos Real.sqrt fun x y => x ^ y) 0
      ≠ 0 :=
  ⟨Real.sqrt_one,
    easeInOutCirc_starts_at_half
      (MathFns.mk Real.pi Real.sin Real.cos Real.sqrt fun x y => x ^ y) Real.sqrt_one⟩

/-- With `c1` bound to `1.70158`, and `Math.pow` exact on the exponents `2` and `3`,
the body of `easeOutBack` returns `1 + c3 (t - 1)^3 + c1 (t - 1)^2`, which is
`1 - easeInBack(1 - t)`; it is `0` at `0` and `1` at `1`. -/
theorem easeOutBackScoped_bound {K : Type} [LinearOrderedField K] (M : MathFns K)
    (h : M.Exact) (t : K) :
    easeOutBackScoped M (some 1.70158) t
      = Except.ok (1 + 2.70158 * (t - 1) ^ 3 + 1.70158 * (t - 1) ^ 2) ∧
    easeOutBackScoped M (some 1.70158) t = Except.ok (1 - easeInBack (1 - t)) ∧
    easeOutBackScoped M (some 1.70158) 0 = Except.ok 0 ∧
    easeOutBackScoped M (some 1.70158) 1 = Except.ok 1 := by
  refine ⟨?_, ?_, ?_, ?_⟩
  · simp only [easeOutBackScoped, h.pow_sq, h.pow_cube]
    congr 1
    ring
  · simp only [easeOutBackScoped, h.pow_sq, h.pow_cube, easeInBack]
    congr 1
    norm_num
    ring
  · simp only [easeOutBackScoped, h.pow_sq, h.pow_cube]
    congr 1
    norm_num
  · simp only [easeOutBackScoped, h.pow_sq, h.pow_cube]
    congr 1
    norm_num

/-- Claim C19, divergence of the code from the claim.  The identifier `c1` that the
body of `ease.easeOutBack` reads has no binding, so for every number `t` the call
raises a `ReferenceError` and returns no value; in particular it returns neither `0` at
`0` nor `1` at `1`. -/
theorem easeOutBack_raises {K : Type} [LinearOrderedField K] (M : MathFns K) (t : K) :
    easeOutBack M t = Except.error (ReferenceError.mk "c1") ∧
    (∀ v : K, easeOutBack M t ≠ Except.ok v) ∧
    easeOutBack M 0 ≠ Except.ok 0 ∧ easeOutBack M 1 ≠ Except.ok 1 := by
  have h : ∀ x : K, easeOutBack M x = Except.error (ReferenceError.mk "c1") := fun _ => rfl
  refine ⟨h t, ?_, ?_, ?_⟩
  · intro v hv
    rw [h t] at hv
    cases hv
  · intro hv
    rw [h 0] at hv
    cases hv
  · intro hv
    rw [h 1] at hv
    cases hv

/-- Claim C20.  For the power families `n = 2, 3, 4, 5` (Quad, Cubic, Quart, Quint) and
every number `t`, in exact arithmetic: `easeIn(t) = t^n`;
`easeOut(t) = 1 - (1 - t)^n = 1 - easeIn(1 - t)`; `easeInOut(t)` is `2^(n-1) t^n` when
`t < 0.5` and `1 - 2^(n-1) (1 - t)^n` otherwise; and
`easeInOut(t) + easeInOut(1 - t) = 1` (for every `t`, so in particular on `[0, 1]`).
Documented value: `easeInOutQuad(0.3) = 0.18`. -/
theorem power_families_formulas {K : Type} [LinearOrderedField K] (t : K) :
    (easeInQuad t = t ^ 2 ∧ easeOutQuad t = 1 - (1 - t) ^ 2 ∧
      easeOutQuad t = 1 - easeInQuad (1 - t) ∧
      easeInOutQuad t = (if t < 0.5 then 2 ^ 1 * t ^ 2 else 1 - 2 ^ 1 * (1 - t) ^ 2) ∧
      easeInOutQuad t + easeInOutQuad (1 - t) = 1) ∧
    (easeInCubic t = t ^ 3 ∧ easeOutCubic t = 1 - (1 - t) ^ 3 ∧
      easeOutCubic t = 1 - easeInCubic (1 - t) ∧
      easeInOutCubic t = (if t < 0.5 then 2 ^ 2 * t ^ 3 else 1 - 2 ^ 2 * (1 - t) ^ 3) ∧
      easeInOutCubic t + easeInOutCubic (1 - t) = 1) ∧
    (easeInQuart t = t ^ 4 ∧ easeOutQuart t = 1 - (1 - t) ^ 4 ∧
      easeOutQuart t = 1 - easeInQuart (1 - t) ∧
      easeInOutQuart t = (if t < 0.5 then 2 ^ 3 * t ^ 4 else 1 - 2 ^ 3 * (1 - t) ^ 4) ∧
      easeInOutQuart t + easeInOutQuart (1 - t) = 1) ∧
    (easeInQuint t = t ^ 5 ∧ easeOutQuint t = 1 - (1 - t) ^ 5 ∧
      easeOutQuint t = 1 - easeInQuint (1 - t) ∧
      easeInOutQuint t = (if t < 0.5 then 2 ^ 4 * t ^ 5 else 1 - 2 ^ 4 * (1 - t) ^ 5) ∧
      easeInOutQuint t + easeInOutQuint (1 - t) = 1) ∧
    easeInOutQuad (0.3 : K) = 0.18 := by
  have hhalf : (0.5 : K) = 1 / 2 := by norm_num
  have hcases : t < 1 / 2 ∧ ¬ (1 - t < 1 / 2) ∨ ¬ (t < 1 / 2) ∧ (1 - t < 1 / 2) ∨
      t = 1 / 2 := by
    rcases lt_trichotomy t (1 / 2) with h | h | h
    · exact Or.inl ⟨h, by linarith⟩
    · exact Or.inr (Or.inr h)
    · exact Or.inr (Or.inl ⟨by linarith, by linarith⟩)
  refine ⟨⟨?_, ?_, ?_, ?_, ?_⟩, ⟨?_, ?_, ?_, ?_, ?_⟩, ⟨?_, ?_, ?_, ?_, ?_⟩,
    ⟨?_, ?_, ?_, ?_, ?_⟩, ?_⟩
  · simp only [easeInQuad]; ring
  · simp only [easeOutQuad]; ring
  · simp only [easeOutQuad, easeInQuad]; ring
  · simp only [easeInOutQuad]
    split <;> ring
  · simp only [easeInOutQuad, hhalf]
    rcases hcases with ⟨h1, h2⟩ | ⟨h1, h2⟩ | h
    · rw [if_pos h1, if_neg h2]; ring
    · rw [if_neg h1, if_pos h2]; ring
    · subst h; norm_num
  · simp only [easeInCubic]; ring
  · simp only [easeOutCubic]; ring
  · simp only [easeOutCubic, easeInCubic]; ring
  · simp only [easeInOutCubic]
    split <;> ring
  · simp only [easeInOutCubic, hhalf]
    rcases hcases with ⟨h1, h2⟩ | ⟨h1, h2⟩ | h
    · rw [if_pos h1, if_neg h2]; ring
    · rw [if_neg h1, if_pos h2]; ring
    · subst h; norm_num
  · simp only [easeInQuart]; ring
  · simp only [easeOutQuart]; ring
  · simp only [easeOutQuart, easeInQuart]; ring
  · simp only [easeInOutQuart]
    split <;> ring
  · simp only [easeInOutQuart, hhalf]
    rcases hcases with ⟨h1, h2⟩ | ⟨h1, h2⟩ | h
    · rw [if_pos h1, if_neg h2]; ring
    · rw [if_neg h1, if_pos h2]; ring
    · subst h; norm_num
  · simp only [easeInQuint]; ring
  · simp only [easeOutQuint]; ring
  · simp only [easeOutQuint, easeInQuint]; ring
  · simp only [easeInOutQuint]
    split <;> ring
  · simp only [easeInOutQuint, hhalf]
    rcases hcases with ⟨h1, h2⟩ | ⟨h1, h2⟩ | h
    · rw [if_pos h1, if_neg h2]; ring
    · rw [if_neg h1, if_pos h2]; ring
    · subst h; norm_num
  · norm_num [easeInOutQuad]

/-! ## Bounce curves -/

theorem easeOutBounce_seg1 {K : Type} [LinearOrderedField K] (t : K) (h : t < 1 / 2.75) :
    easeOutBounce t = 7.5625 * t * t := by
  simp only [easeOutBounce, if_pos h]

theorem easeOutBounce_seg2 {K : Type} [LinearOrderedField K] (t : K) (h1 : ¬ t < 1 / 2.75)
    (h2 : t < 2 / 2.75) :
    easeOutBounce t = 7.5625 * (t - 1.5 / 2.75) * (t - 1.5 / 2.75) + 0.75 := by
  simp only [easeOutBounce, if_neg h1, if_pos h2]

theorem easeOutBounce_seg3 {K : Type} [LinearOrderedField K] (t : K) (h1 : ¬ t < 1 / 2.75)
    (h2 : ¬ t < 2 / 2.75) (h3 : t < 2.5 / 2.75) :
    easeOutBounce t = 7.5625 * (t - 2.25 / 2.75) * (t - 2.25 / 2.75) + 0.9375 := by
  simp only [easeOutBounce, if_neg h1, if_neg h2, if_pos h3]

theorem easeOutBounce_seg4 {K : Type} [LinearOrderedField K] (t : K) (h1 : ¬ t < 1 / 2.75)
    (h2 : ¬ t < 2 / 2.75) (h3 : ¬ t < 2.5 / 2.75) :
    easeOutBounce t = 7.5625 * (t - 2.625 / 2.75) * (t - 2.625 / 2.75) + 0.984375 := by
  simp only [easeOutBounce, if_neg h1, if_neg h2, if_neg h3]

/-- On the unit interval `easeOutBounce` stays inside the unit interval. -/
theorem easeOutBounce_mem_unit {K : Type} [LinearOrderedField K] (t : K) (h0 : 0 ≤ t)
    (h1 : t ≤ 1) : 0 ≤ easeOutBounce t ∧ easeOutBounce t ≤ 1 := by
  by_cases c1 : t < 1 / 2.75
  · rw [easeOutBounce_seg1 t c1]
    norm_num at c1
    constructor
    · nlinarith [mul_nonneg h0 h0]
    · nlinarith [mul_nonneg h0 h0]
  · by_cases c2 : t < 2 / 2.75
    · rw [easeOutBounce_seg2 t c1 c2]
      norm_num at c1 c2 ⊢
      constructor
      · nlinarith [sq_nonneg (t - 6 / 11)]
      · nlinarith
    · by_cases c3 : t < 2.5 / 2.75
      · rw [easeOutBounce_seg3 t c1 c2 c3]
        norm_num at c1 c2 c3 ⊢
        constructor
        · nlinarith [sq_nonneg (t - 9 / 11)]
        · nlinarith
      · rw [easeOutBounce_seg4 t c1 c2 c3]
        norm_num at c1 c2 c3 ⊢
        constructor
        · nlinarith [sq_nonneg (t - 21 / 22)]
        · nlinarith

/-- The four-branch conditional of `easeOutBounce`, with each test `t < b` written as
the failure of `b ≤ t`. -/
theorem easeOutBounce_eq_le {K : Type} [LinearOrderedField K] (t : K) :
    easeOutBounce t =
      if (1 / 2.75 : K) ≤ t then
        (if (2 / 2.75 : K) ≤ t then
          (if (2.5 / 2.75 : K) ≤ t then
            7.5625 * (t - 2.625 / 2.75) * (t - 2.625 / 2.75) + 0.984375
          else 7.5625 * (t - 2.25 / 2.75) * (t - 2.25 / 2.75) + 0.9375)
        else 7.5625 * (t - 1.5 / 2.75) * (t - 1.5 / 2.75) + 0.75)
      else 7.5625 * t * t := by
  by_cases c1 : t < 1 / 2.75
  · rw [easeOutBounce_seg1 t c1, if_neg (not_le.2 c1)]
  · rw [if_pos (not_lt.1 c1)]
    by_cases c2 : t < 2 / 2.75
    · rw [easeOutBounce_seg2 t c1 c2, if_neg (not_le.2 c2)]
    · rw [if_pos (not_lt.1 c2)]
      by_cases c3 : t < 2.5 / 2.75
      · rw [easeOutBounce_seg3 t c1 c2 c3, if_neg (not_le.2 c3)]
      · rw [easeOutBounce_seg4 t c1 c2 c3, if_pos (not_lt.1 c3)]

/-- The curve `easeOutBounce` is continuous: its four quadratic pieces agree at the
three points where they meet. -/
theorem easeOutBounce_continuous {K : Type} [LinearOrderedField K] [TopologicalSpace K]
    [OrderTopology K] [TopologicalRing K] : Continuous (easeOutBounce : K → K) := by
  have heq : (easeOutBounce : K → K) = fun t =>
      if (1 / 2.75 : K) ≤ t then
        (if (2 / 2.75 : K) ≤ t then
          (if (2.5 / 2.75 : K) ≤ t then
            7.5625 * (t - 2.625 / 2.75) * (t - 2.625 / 2.75) + 0.984375
          else 7.5625 * (t - 2.25 / 2.75) * (t - 2.25 / 2.75) + 0.9375)
        else 7.5625 * (t - 1.5 / 2.75) * (t - 1.5 / 2.75) + 0.75)
      else 7.5625 * t * t := funext easeOutBounce_eq_le
  rw [heq]
  refine Continuous.if_le ?_ (by fun_prop) continuous_const continuous_id ?_
  · refine Continuous.if_le ?_ (by fun_prop) continuous_const continuous_id ?_
    · refine Continuous.if_le (by fun_prop) (by fun_prop) continuous_const continuous_id ?_
      intro x hx
      rw [← hx]
      norm_num
    · intro x hx
      rw [← hx]
      norm_num
  · intro x hx
    rw [← hx]
    norm_num

/-- Claim C21.  In exact rational arithmetic `easeOutBounce` is made of four
quadratic pieces; for every `t` with `0 ≤ t ≤ 1` its value lies in `[0, 1]`; it is `0`
at `0` and `1` at `1`; at each point where two pieces meet, `1/2.75`, `2/2.75` and
`2.5/2.75`, its value is `1`, the piece on the left takes the value `1` there too, and
the curve is continuous (it is continuous everywhere); and
`easeInBounce(t) = 1 - easeOutBounce(1 - t)` and `easeInOutBounce(t)` lie in `[0, 1]`
for every `t` in `[0, 1]`. -/
theorem bounce_stays_in_unit_interval (t : ℚ) (h0 : 0 ≤ t) (h1 : t ≤ 1) :
    (0 ≤ easeOutBounce t ∧ easeOutBounce t ≤ 1) ∧
    ((t < 1 / 2.75 → easeOutBounce t = 7.5625 * t * t) ∧
      (1 / 2.75 ≤ t → t < 2 / 2.75 →
        easeOutBounce t = 7.5625 * (t - 1.5 / 2.75) * (t - 1.5 / 2.75) + 0.75) ∧
      (2 / 2.75 ≤ t → t < 2.5 / 2.75 →
        easeOutBounce t = 7.5625 * (t - 2.25 / 2.75) * (t - 2.25 / 2.75) + 0.9375) ∧
      (2.5 / 2.75 ≤ t →
        easeOutBounce t = 7.5625 * (t - 2.625 / 2.75) * (t - 2.625 / 2.75) + 0.984375)) ∧
    (easeOutBounce (0 : ℚ) = 0 ∧ easeOutBounce (1 : ℚ) = 1) ∧
    (easeOutBounce (1 / 2.75 : ℚ) = 1 ∧ easeOutBounce (2 / 2.75 : ℚ) = 1 ∧
      easeOutBounce (2.5 / 2.75 : ℚ) = 1) ∧
    ((7.5625 : ℚ) * (1 / 2.75) * (1 / 2.75) = 1 ∧
      (7.5625 : ℚ) * (2 / 2.75 - 1.5 / 2.75) * (2 / 2.75 - 1.5 / 2.75) + 0.75 = 1 ∧
      (7.5625 : ℚ) * (2.5 / 2.75 - 2.25 / 2.75) * (2.5 / 2.75 - 2.25 / 2.75) + 0.9375 = 1) ∧
    (Continuous (easeOutBounce : ℚ → ℚ) ∧
      ContinuousAt (easeOutBounce : ℚ → ℚ) (1 / 2.75) ∧
      ContinuousAt (easeOutBounce : ℚ → ℚ) (2 / 2.75) ∧
      ContinuousAt (easeOutBounce : ℚ → ℚ) (2.5 / 2.75)) ∧
    (easeInBounce t = 1 - easeOutBounce (1 - t) ∧
      0 ≤ easeInBounce t ∧ easeInBounce t ≤ 1) ∧
    (0 ≤ easeInOutBounce t ∧ easeInOutBounce t ≤ 1) := by
  have hcont : Continuous (easeOutBounce : ℚ → ℚ) := easeOutBounce_continuous
  have hmirror := easeOutBounce_mem_unit (1 - t) (by linarith) (by linarith)
  refine ⟨easeOutBounce_mem_unit t h0 h1, ⟨?_, ?_, ?_, ?_⟩, ⟨?_, ?_⟩, ⟨?_, ?_, ?_⟩,
    ⟨by norm_num, by norm_num, by norm_num⟩,
    ⟨hcont, hcont.continuousAt, hcont.continuousAt, hcont.continuousAt⟩,
    ⟨rfl, ?_, ?_⟩, ?_⟩
  · exact easeOutBounce_seg1 t
  · intro c1 c2
    exact easeOutBounce_seg2 t (not_lt.2 c1) c2
  · intro c2 c3
    have c1 : ¬ t < 1 / 2.75 := by
      norm_num at c2 ⊢
      linarith
    exact easeOutBounce_seg3 t c1 (not_lt.2 c2) c3
  · intro c3
    have c1 : ¬ t < 1 / 2.75 := by
      norm_num at c3 ⊢
      linarith
    have c2 : ¬ t < 2 / 2.75 := by
      norm_num at c3 ⊢
      linarith
    exact easeOutBounce_seg4 t c1 c2 (not_lt.2 c3)
  · norm_num [easeOutBounce]
  · norm_num [easeOutBounce]
  · norm_num [easeOutBounce]
  · norm_num [easeOutBounce]
  · norm_num [easeOutBounce]
  · simp only [easeInBounce]
    linarith [hmirror.2]
  · simp only [easeInBounce]
    linarith [hmirror.1]
  · simp only [easeInOutBounce]
    split
    · rename_i hlt
      norm_num at hlt
      have hb := easeOutBounce_mem_unit (1 - 2 * t) (by linarith) (by linarith)
      constructor <;> linarith [hb.1, hb.2]
    · rename_i hge
      norm_num at hge
      have hb := easeOutBounce_mem_unit (2 * t - 1) (by linarith) (by linarith)
      constructor <;> linarith [hb.1, hb.2]

/-- Witness of claim C21 at `t = 1/2`, where `easeOutBounce` is `49/64`. -/
theorem bounce_stays_in_unit_interval_witness :
    easeOutBounce (1 / 2 : ℚ) = 49 / 64 ∧
    (0 ≤ easeOutBounce (1 / 2 : ℚ) ∧ easeOutBounce (1 / 2 : ℚ) ≤ 1) ∧
    (0 ≤ easeInBounce (1 / 2 : ℚ) ∧ easeInBounce (1 / 2 : ℚ) ≤ 1) ∧
    (0 ≤ easeInOutBounce (1 / 2 : ℚ) ∧ easeInOutBounce (1 / 2 : ℚ) ≤ 1) :=
  have h := bounce_stays_in_unit_interval (1 / 2) (by norm_num) (by norm_num)
  ⟨by norm_num [easeOutBounce], h.1, ⟨h.2.2.2.2.2.2.1.2.1, h.2.2.2.2.2.2.1.2.2⟩,
    h.2.2.2.2.2.2.2⟩

/-! ## equals: objects against primitives -/

/-- An object with at least one own key is never equal, for `equals`, to a number or
a boolean, in either order of the arguments. -/
theorem equals_keyed_object_vs_number_or_boolean (fuel r : Nat) (p : String × JSValue)
    (props : List (String × JSValue)) (b : JSValue)
    (hb : (∃ n, b = JSValue.num n) ∨ ∃ x, b = JSValue.bool x) :
    equals (fuel + 1) (JSValue.obj r (p :: props)) b = Outcome.returned false ∧
    equals (fuel + 1) b (JSValue.obj r (p :: props)) = Outcome.returned false := by
  rcases hb with ⟨n, rfl⟩ | ⟨x, rfl⟩
  · cases n with
    | nan => constructor <;> simp [equals, strictEq, typeOf, isDate, truthy]
    | posInf =>
      constructor <;>
        simp [equals, strictEq, typeOf, isDate, truthy, typeofJS, getProp, ownKeys]
    | negInf =>
      constructor <;>
        simp [equals, strictEq, typeOf, isDate, truthy, typeofJS, getProp, ownKeys]
    | fin q =>
      by_cases hq : q = 0
      · constructor <;> simp [equals, strictEq, typeOf, isDate, truthy, hq]
      · constructor <;>
          simp [equals, strictEq, typeOf, isDate, truthy, typeofJS, getProp, ownKeys, hq]
  · cases x with
    | false => constructor <;> simp [equals, strictEq, typeOf, isDate, truthy]
    | true =>
      constructor <;>
        simp [equals, strictEq, typeOf, isDate, truthy, typeofJS, getProp, ownKeys]

/-- Claim C22, divergence of the code from the claim.  Within every budget,
`equals({}, 5)` and `equals(5, {})` return `true`, and so do `equals([], true)` and
`equals(true, [])`: the guard of line 66 lets a pair of an object and a truthy
primitive through, both have no `prototype` property and no own key, and `every` over
no key is `true`.  The array `["a", "b"]` and the string `"ab"` are equal for
`equals` too, in both orders. -/
theorem equals_empty_object_equals_primitive (fuel : Nat) :
    equals (fuel + 1) (JSValue.obj 1 []) (numV 5) = Outcome.returned true ∧
    equals (fuel + 1) (numV 5) (JSValue.obj 1 []) = Outcome.returned true ∧
    equals (fuel + 1) (JSValue.arr 2 []) (JSValue.bool true) = Outcome.returned true ∧
    equals (fuel + 1) (JSValue.bool true) (JSValue.arr 2 []) = Outcome.returned true ∧
    equals (fuel + 2) (JSValue.arr 3 [JSValue.str "a", JSValue.str "b"]) (JSValue.str "ab")
      = Outcome.returned true ∧
    equals (fuel + 2) (JSValue.str "ab") (JSValue.arr 3 [JSValue.str "a", JSValue.str "b"])
      = Outcome.returned true := by
  refine ⟨rfl, rfl, rfl, rfl, ?_, ?_⟩
  · rfl
  · rfl

end Bijou
